import Mathlib

/-!
Verification development for the Playwright automation generator service
(`services/generator/main.py`).

Texts are modelled as `List Char` (Python `str` over its code points; the
development is exercised on ASCII data, and case-folding is modelled on the
ASCII range, matching the repository's ASCII-only patterns and messages).
Python `None` for optional strings is collapsed to the empty string wherever
the source only ever tests truthiness of the value, which is the case for all
code modelled here; each such spot is marked in a comment.
-/

/-- Shorthand: view a Lean string literal as the Python-style char list. -/
def str (s : String) : List Char := s.data

abbrev Str := List Char

/-- The opening-brace character, kept out of string literals. -/
def lbrace : Char := Char.ofNat 123

/-- The closing-brace character, kept out of string literals. -/
def rbrace : Char := Char.ofNat 125

/-- Python whitespace on the modelled range: the characters accepted by
`str.isspace` / regex `\s` that occur in 8-bit text
(space, tab, LF, CR, VT, FF, FS, GS, RS, US, NEL). -/
def pySpace (c : Char) : Bool :=
  c.toNat == 32 || c.toNat == 9 || c.toNat == 10 || c.toNat == 13 ||
  c.toNat == 11 || c.toNat == 12 || c.toNat == 28 || c.toNat == 29 ||
  c.toNat == 30 || c.toNat == 31 || c.toNat == 133

/-- Regex word character `\w` on the ASCII range: `[a-zA-Z0-9_]`. -/
def isWordChar (c : Char) : Bool :=
  (97 ≤ c.toNat && c.toNat ≤ 122) || (65 ≤ c.toNat && c.toNat ≤ 90) ||
  (48 ≤ c.toNat && c.toNat ≤ 57) || c.toNat == 95

/-- ASCII lower-casing (Python `str.lower` / `re.IGNORECASE` on ASCII). -/
def asciiLower (c : Char) : Char :=
  if 65 ≤ c.toNat ∧ c.toNat ≤ 90 then Char.ofNat (c.toNat + 32) else c

/-- Case-insensitive character comparison. -/
def lowerEq (a b : Char) : Bool := asciiLower a == asciiLower b

/-- `str.lower` over a text. -/
def lowerStr (s : Str) : Str := s.map asciiLower

/-- Strip from the left while a predicate holds (`lstrip`). -/
def stripLeftWhile (p : Char → Bool) (s : Str) : Str := s.dropWhile p

/-- Strip from the right while a predicate holds (`rstrip`). -/
def stripRightWhile (p : Char → Bool) (s : Str) : Str :=
  (s.reverse.dropWhile p).reverse

/-- Strip from both ends (`str.strip()`-style with a character predicate). -/
def stripWhile (p : Char → Bool) (s : Str) : Str :=
  stripRightWhile p (stripLeftWhile p s)

/-- Python `str.strip()` (no argument: strips whitespace). -/
def pyStrip (s : Str) : Str := stripWhile pySpace s

/-- Python substring containment `needle in hay`. -/
def strContains (hay needle : Str) : Bool :=
  match hay with
  | [] => needle.isPrefixOf ([] : Str)
  | _ :: rest => needle.isPrefixOf hay || strContains rest needle

/-- Python `a or b` on strings (with `None` collapsed to `""`). -/
def pyOr (a b : Str) : Str := if a.isEmpty then b else a

/-- Split a text on the newline character, Python `str.split("\n")`
(keeps empty pieces). -/
def splitLines (s : Str) : List Str :=
  match s with
  | [] => [[]]
  | c :: rest =>
    let r := splitLines rest
    if c = '\n' then [] :: r
    else
      match r with
      | [] => [[c]]
      | l :: ls => (c :: l) :: ls

/-- Join lines with newlines, Python `"\n".join(lines)`. -/
def joinLines (ls : List Str) : Str :=
  match ls with
  | [] => []
  | [l] => l
  | l :: rest => l ++ '\n' :: joinLines rest

/-- Python slice `s[a:b]` for `0 ≤ a ≤ b`. -/
def listSlice (s : Str) (a b : Nat) : Str := (s.take b).drop a

/-- First index of a character, Python `str.find` (as an option). -/
def firstIdxOf (c : Char) : Str → Option Nat
  | [] => none
  | x :: xs => if x = c then some 0 else (firstIdxOf c xs).map (· + 1)

/-- Last index of a character, Python `str.rfind` (as an option). -/
def lastIdxOf (c : Char) : Str → Option Nat
  | [] => none
  | x :: xs =>
    match lastIdxOf c xs with
    | some j => some (j + 1)
    | none => if x = c then some 0 else none

/-- Python `str.partition(sep)` for a single character, collapsed to the
pair (before, after); when the separator is absent this is `(s, "")`,
which agrees with every use in the modelled code (the sources guard the
partition with an `in` test or only use the pieces). -/
def partitionChar (c : Char) (s : Str) : Str × Str :=
  (s.takeWhile (· ≠ c), (s.dropWhile (· ≠ c)).drop 1)

/-- Digits-only test, Python `str.isdigit` on ASCII (false on empty). -/
def pyIsDigits (s : Str) : Bool := !s.isEmpty && s.all Char.isDigit

/-- Parse a decimal numeral (used after an `isdigit` guard). -/
def natOfDigits (s : Str) : Nat := s.foldl (fun a c => 10 * a + (c.toNat - 48)) 0

-- Basic facts ---------------------------------------------------------------

theorem stripLeftWhile_suffix (p : Char → Bool) (s : Str) :
    stripLeftWhile p s <:+ s := by
  simpa [stripLeftWhile] using @List.dropWhile_suffix _ s p

theorem stripRightWhile_infixOf (p : Char → Bool) (s : Str) :
    stripRightWhile p s <:+: s := by
  have h : s.reverse.dropWhile p <:+ s.reverse :=
    @List.dropWhile_suffix _ s.reverse p
  rcases h with ⟨t, ht⟩
  refine ⟨[], t.reverse, ?_⟩
  have := congrArg List.reverse ht
  simpa [List.reverse_append] using this

theorem pyStrip_infixOf (s : Str) : pyStrip s <:+: s := by
  have h1 := stripRightWhile_infixOf pySpace (stripLeftWhile pySpace s)
  have h2 : stripLeftWhile pySpace s <:+: s := (stripLeftWhile_suffix pySpace s).isInfix
  exact h1.trans h2

theorem strContains_iff_infixOf (hay needle : Str) :
    strContains hay needle = true ↔ needle <:+: hay := by
  induction hay with
  | nil =>
    simp only [strContains, List.isPrefixOf_iff_prefix]
    constructor
    · intro h; exact h.isInfix
    · intro h
      have := List.eq_nil_of_infix_nil h
      simp [this]
  | cons c rest ih =>
    simp only [strContains, Bool.or_eq_true, List.isPrefixOf_iff_prefix, ih]
    constructor
    · rintro (h | h)
      · exact h.isInfix
      · exact h.trans (List.suffix_cons c rest).isInfix
    · intro h
      rcases List.infix_cons_iff.mp h with h | h
      · exact Or.inl h
      · exact Or.inr h

theorem strContains_mono {outer inner needle : Str}
    (hsub : inner <:+: outer) (h : strContains inner needle = true) :
    strContains outer needle = true := by
  rw [strContains_iff_infixOf] at h ⊢
  exact h.trans hsub

theorem pyStrip_of_ends (s : Str)
    (h1 : ∀ c, s.head? = some c → pySpace c = false)
    (h2 : ∀ c, s.getLast? = some c → pySpace c = false) :
    pyStrip s = s := by
  unfold pyStrip stripWhile stripLeftWhile stripRightWhile
  have hd : s.dropWhile pySpace = s := by
    cases hs : s with
    | nil => simp
    | cons c rest =>
      have := h1 c (by simp [hs])
      simp [List.dropWhile_cons, this]
  rw [hd]
  cases hs : s.reverse with
  | nil =>
    have : s = [] := by simpa using congrArg List.reverse hs
    simp [this]
  | cons c rest =>
    have hlast : s.getLast? = some c := by
      rw [← List.head?_reverse]
      simp [hs]
    have := h2 c hlast
    simp only [List.dropWhile_cons, this]
    simpa using (congrArg List.reverse hs).symm

/-!
## A small pattern engine

The generator's regexes are alternations of near-literal pieces.  Each
alternative is modelled as a token list.  `\s*` and `\s+` are implemented by
maximal munch, which coincides with the backtracking semantics here because
in every modelled pattern the token after a whitespace gap starts with a
non-whitespace character; similarly `(?:ED)?` commits when its literal is
present, which is exact because the following character class cannot accept
the letter that would have started the literal.  `lazyThru s` implements a
trailing `.*?s` (no-DOTALL), the only form in which a lazy gap occurs in the
modelled patterns.
-/

inductive RTok where
  | lit (s : Str)
  | ws1
  | ws0
  | optLit (s : Str)
  | cls (cs : Str)
  | digits1
  | lazyThru (s : Str)
deriving Repr, DecidableEq

/-- Drop a case-insensitive literal from the front, returning the rest. -/
def dropCI : Str → Str → Option Str
  | [], cs => some cs
  | _ :: _, [] => none
  | p :: ps, c :: cs => if lowerEq p c then dropCI ps cs else none

/-- Maximal munch of a predicate; returns the count and the rest. -/
def munch (f : Char → Bool) : Str → Nat × Str
  | [] => (0, [])
  | c :: cs =>
    if f c then
      let r := munch f cs
      (r.1 + 1, r.2)
    else (0, c :: cs)

/-- Scan a minimal non-newline gap up to a case-insensitive literal and
consume the literal (`.*?s` at the end of a pattern). -/
def scanThruGap (s : Str) : Str → Option Str
  | [] => dropCI s []
  | c :: cs =>
    match dropCI s (c :: cs) with
    | some r => some r
    | none => if c = '\n' then none else scanThruGap s cs

/-- Match a token list at the front of a text, returning the rest. -/
def matchToks : List RTok → Str → Option Str
  | [], cs => some cs
  | .lit s :: ts, cs => (dropCI s cs).bind (matchToks ts)
  | .ws1 :: ts, cs =>
    let r := munch pySpace cs
    if r.1 = 0 then none else matchToks ts r.2
  | .ws0 :: ts, cs => matchToks ts (munch pySpace cs).2
  | .optLit s :: ts, cs =>
    match dropCI s cs with
    | some r => matchToks ts r
    | none => matchToks ts cs
  | .cls set :: ts, cs =>
    match cs with
    | [] => none
    | c :: r => if set.any (fun x => lowerEq x c) then matchToks ts r else none
  | .digits1 :: ts, cs =>
    let r := munch Char.isDigit cs
    if r.1 = 0 then none else matchToks ts r.2
  | .lazyThru s :: ts, cs => (scanThruGap s cs).bind (matchToks ts)

/-- Ordered alternation at the front of a text; returns the match length. -/
def matchAlts : List (List RTok) → Str → Option Nat
  | [], _ => none
  | a :: rest, cs =>
    match matchToks a cs with
    | some r => some (cs.length - r.length)
    | none => matchAlts rest cs

/-- All matches of an alternation in `re.finditer` order: scan positions left
to right, take the first alternative that matches, continue after the match.
The fuel argument is the remaining text length (every match consumes at
least one character; the `max n 1` guard mirrors the engine's bump over an
empty match, which no modelled alternative can produce). -/
def findMatchesF (alts : List (List RTok)) : Nat → Str → Nat → List (Nat × Nat)
  | 0, _, _ => []
  | _ + 1, [], _ => []
  | fuel + 1, c :: rest, i =>
    match matchAlts alts (c :: rest) with
    | some n => (i, n) :: findMatchesF alts fuel ((c :: rest).drop (max n 1)) (i + max n 1)
    | none => findMatchesF alts fuel rest (i + 1)

def findMatches (alts : List (List RTok)) (cs : Str) : List (Nat × Nat) :=
  findMatchesF alts cs.length cs 0

/-- `re.search` as a boolean. -/
def searchB (alts : List (List RTok)) : Str → Bool
  | [] => (matchAlts alts []).isSome
  | c :: rest => (matchAlts alts (c :: rest)).isSome || searchB alts rest

/-!
## Hidden-Error Detector (`_detect_hidden_errors`)

`_EXEC_ERROR_PATTERNS` and `_BENIGN_PATTERNS` from the source, alternative
by alternative, in source order, `re.IGNORECASE`.
-/

/-- The character class `[:\s]`. -/
def colonOrWs : Str :=
  ':' :: [' ', '\t', '\n', '\r', Char.ofNat 11, Char.ofNat 12, Char.ofNat 28,
    Char.ofNat 29, Char.ofNat 30, Char.ofNat 31, Char.ofNat 133]

def execAlts : List (List RTok) :=
  [ [.lit (str "TypeError")],
    [.lit (str "ReferenceError")],
    [.lit (str "SyntaxError")],
    [.lit (str "EvalError")],
    [.lit (str "RangeError")],
    [.lit (str "URIError")],
    [.lit (str "TimeoutError")],
    [.lit (str "page.evaluate")],
    [.lit (str "Unhandled"), .ws1, .lit (str "rejection")],
    [.lit (str "Cannot"), .ws1, .lit (str "read"), .ws1, .lit (str "propert")],
    [.lit (str "is"), .ws1, .lit (str "not"), .ws1, .lit (str "a"), .ws1, .lit (str "function")],
    [.lit (str "is"), .ws1, .lit (str "not"), .ws1, .lit (str "defined")],
    [.lit (str "ActionError")],
    [.lit (str "FAIL"), .optLit (str "ED"), .cls colonOrWs],
    [.lit (str "CRASH")],
    [.lit (str "Execution"), .ws1, .lit (str "error")],
    [.lit (str "Script"), .ws1, .lit (str "error")] ]

def benignAlts : List (List RTok) :=
  [ [.lit (str "WebSocket"), .ws1, .lit (str "connection")],
    [.lit (str "ERR_CONNECTION_REFUSED")],
    [.lit (str "failed"), .ws1, .lit (str "to"), .ws1, .lit (str "connect"),
      .ws1, .lit (str "to"), .ws1, .lit (str "websocket")],
    [.lit (str "vite"), .lazyThru (str "client")],
    [.lit (str "React"), .ws1, .lit (str "DevTools")],
    [.lit (str "Download"), .ws1, .lit (str "the"), .ws1, .lit (str "React")],
    [.lit (str "net::ERR_")],
    [.lit (str "favicon.ico")],
    [.lit (str "HMR")],
    [.lit (str "hot"), .ws1, .lit (str "module")],
    [.lit (str "localhost:"), .digits1, .lit (str "/@vite")] ]

/-- Context snippet around a match: `text[max(0,start-120):min(len,end+200)].strip()`. -/
def snippetAt (full : Str) (p : Nat × Nat) : Str :=
  pyStrip (listSlice full (p.1 - 120) (min full.length (p.1 + p.2 + 200)))

/-- A match qualifies when its surrounding context is not benign noise. -/
def qualifyingMatch (full : Str) (p : Nat × Nat) : Bool :=
  !searchB benignAlts (snippetAt full p)

/-- One text's scan: first non-benign error-pattern match, as a snippet. -/
def scanHidden (full : Str) : Option Str :=
  ((findMatches execAlts full).find? (qualifyingMatch full)).map (snippetAt full)

def aboutBlankNeedle : Str := str "Page URL: about:blank"

def navFailMsg : Str := str "Navigation appears to have failed – page is still at about:blank"

/-- `_detect_hidden_errors(actions_taken, exec_error)`.  `None` arguments are
collapsed to `""` (the source only tests their truthiness). -/
def detect_hidden_errors (actions_taken exec_error : Str) : Option Str :=
  match (if actions_taken.isEmpty then none else scanHidden actions_taken) with
  | some s => some s
  | none =>
    match (if exec_error.isEmpty then none else scanHidden exec_error) with
    | some s => some s
    | none =>
      if !actions_taken.isEmpty && strContains actions_taken aboutBlankNeedle then
        some navFailMsg
      else none

/-- Decidable form of "every error-pattern match in this text sits in benign
context" (the hypothesis of the no-false-downgrade claim). -/
def all_matches_benign (t : Str) : Bool :=
  (findMatches execAlts t).all (fun p => searchB benignAlts (snippetAt t p))

-- Detector lemmas ------------------------------------------------------------

theorem char_eq_of_toNat {c : Char} {n : Nat} (h : c.toNat = n) : c = Char.ofNat n := by
  rw [← h, Char.ofNat_toNat]

theorem pySpace_cases {c : Char} (h : pySpace c = true) :
    c ∈ [' ', '\t', '\n', '\r', Char.ofNat 11, Char.ofNat 12, Char.ofNat 28,
      Char.ofNat 29, Char.ofNat 30, Char.ofNat 31, Char.ofNat 133] := by
  simp only [pySpace, Bool.or_eq_true, beq_iff_eq] at h
  rcases h with ((((((((((h | h) | h) | h) | h) | h) | h) | h) | h) | h) | h) <;>
    simp [char_eq_of_toNat h, Char.ofNat]

theorem asciiLower_of_space {c : Char} (h : pySpace c = true) : asciiLower c = c := by
  have := pySpace_cases h
  fin_cases this <;> decide

/-- Every alternative of the error-pattern alternation opens with a literal
whose head character is a non-whitespace letter. -/
def altHeadOk : List RTok → Bool
  | .lit (x :: _) :: _ => !pySpace (asciiLower x)
  | _ => false

theorem execAlts_headOk : execAlts.all altHeadOk = true := by decide

theorem dropCI_length {p cs r : Str} (h : dropCI p cs = some r) :
    cs.length = p.length + r.length := by
  induction p generalizing cs with
  | nil => simp [dropCI] at h; simp [h]
  | cons x xs ih =>
    cases cs with
    | nil => simp [dropCI] at h
    | cons c cs' =>
      simp only [dropCI] at h
      split at h
      · have := ih h; simp [this]; omega
      · exact absurd h (by simp)

theorem munch_length (f : Char → Bool) (cs : Str) :
    (munch f cs).1 + (munch f cs).2.length = cs.length := by
  induction cs with
  | nil => simp [munch]
  | cons c cs' ih =>
    simp only [munch]
    split
    · simpa [Nat.add_right_comm] using ih
    · simp

theorem scanThruGap_length {s cs r : Str} (h : scanThruGap s cs = some r) :
    r.length ≤ cs.length := by
  induction cs with
  | nil =>
    simp only [scanThruGap] at h
    have := dropCI_length h; omega
  | cons c cs' ih =>
    simp only [scanThruGap] at h
    split at h
    · next heq =>
      cases h
      have := dropCI_length heq; omega
    · split at h
      · exact absurd h (by simp)
      · have := ih h; simp; omega

theorem matchToks_length {ts : List RTok} {cs r : Str} (h : matchToks ts cs = some r) :
    r.length ≤ cs.length := by
  induction ts generalizing cs with
  | nil => simp [matchToks] at h; simp [h]
  | cons t ts ih =>
    cases t with
    | lit s =>
      simp only [matchToks, Option.bind_eq_some] at h
      rcases h with ⟨r1, hr1, hr⟩
      have := dropCI_length hr1
      have := ih hr
      omega
    | ws1 =>
      simp only [matchToks] at h
      split at h
      · exact absurd h (by simp)
      · have := ih h
        have := munch_length pySpace cs
        omega
    | ws0 =>
      simp only [matchToks] at h
      have := ih h
      have := munch_length pySpace cs
      omega
    | optLit s =>
      simp only [matchToks] at h
      split at h
      · next heq =>
        have := dropCI_length heq
        have := ih h
        omega
      · exact ih h
    | cls set =>
      simp only [matchToks] at h
      split at h
      · exact absurd h (by simp)
      · split at h
        · have := ih h; simp; omega
        · exact absurd h (by simp)
    | digits1 =>
      simp only [matchToks] at h
      split at h
      · exact absurd h (by simp)
      · have := ih h
        have := munch_length Char.isDigit cs
        omega
    | lazyThru s =>
      simp only [matchToks, Option.bind_eq_some] at h
      rcases h with ⟨r1, hr1, hr⟩
      have := scanThruGap_length hr1
      have := ih hr
      omega

theorem matchAlts_head {alts : List (List RTok)} {cs : Str} {n : Nat}
    (hok : alts.all altHeadOk = true) (h : matchAlts alts cs = some n) :
    (∃ c rest, cs = c :: rest ∧ pySpace c = false) ∧ 1 ≤ n := by
  induction alts with
  | nil => simp [matchAlts] at h
  | cons a rest ih =>
    simp only [List.all_cons, Bool.and_eq_true] at hok
    simp only [matchAlts] at h
    split at h
    · next r heq =>
      -- the alternative opens with a non-empty case-insensitive literal
      cases a with
      | nil => simp [altHeadOk] at hok
      | cons t ts =>
        cases t with
        | lit s =>
          cases s with
          | nil => simp [altHeadOk] at hok
          | cons x xs =>
            simp only [matchToks, Option.bind_eq_some] at heq
            rcases heq with ⟨r1, hr1, hrest⟩
            cases cs with
            | nil => simp [dropCI] at hr1
            | cons c cs' =>
              simp only [dropCI] at hr1
              split at hr1
              · next hle =>
                have hsp : pySpace c = false := by
                  by_contra hc
                  have hc' : pySpace c = true := by
                    revert hc; cases pySpace c <;> simp
                  have hfix := asciiLower_of_space hc'
                  have : asciiLower x = asciiLower c := by
                    simpa [lowerEq] using hle
                  rw [hfix] at this
                  have hok1 : pySpace (asciiLower x) = false := by
                    simpa [altHeadOk] using hok.1
                  rw [this, hc'] at hok1
                  exact absurd hok1 (by simp)
                refine ⟨⟨c, cs', rfl, hsp⟩, ?_⟩
                cases h
                have hlen1 := dropCI_length hr1
                have hlen2 := matchToks_length hrest
                simp only [List.length_cons]
                omega
              · exact absurd hr1 (by simp)
        | ws1 => simp [altHeadOk] at hok
        | ws0 => simp [altHeadOk] at hok
        | optLit s => simp [altHeadOk] at hok
        | cls set => simp [altHeadOk] at hok
        | digits1 => simp [altHeadOk] at hok
        | lazyThru s => simp [altHeadOk] at hok
    · exact ih hok.2 h

theorem stripWhile_eq_nil {p : Char → Bool} {s : Str} (h : stripWhile p s = [])
    {c : Char} (hc : c ∈ s) : p c = true := by
  unfold stripWhile stripRightWhile stripLeftWhile at h
  have h1 : (s.dropWhile p).reverse.dropWhile p = [] := by
    have := congrArg List.reverse h
    simpa using this
  have h2 : ∀ x ∈ s.dropWhile p, p x = true := by
    intro x hx
    have := (List.dropWhile_eq_nil_iff).mp h1
    exact this x (by simpa using hx)
  have hsplit : s = s.takeWhile p ++ s.dropWhile p :=
    (List.takeWhile_append_dropWhile p s).symm
  rw [hsplit] at hc
  rcases List.mem_append.mp hc with hc | hc
  · exact List.mem_takeWhile_imp hc
  · exact h2 c hc

theorem pyStrip_ne_nil_of_mem {s : Str} {c : Char} (hc : c ∈ s)
    (hns : pySpace c = false) : pyStrip s ≠ [] := by
  intro h
  have := stripWhile_eq_nil h hc
  rw [this] at hns
  exact absurd hns (by simp)

theorem findMatchesF_spec (full : Str) :
    ∀ fuel (cs : Str) (i : Nat), cs = full.drop i →
      ∀ p ∈ findMatchesF execAlts fuel cs i,
        p.1 < full.length ∧ 1 ≤ p.2 ∧
          ∃ c rest, full.drop p.1 = c :: rest ∧ pySpace c = false := by
  intro fuel
  induction fuel with
  | zero => intro cs i _ p hp; simp [findMatchesF] at hp
  | succ fuel ih =>
    intro cs i hcs p hp
    cases cs with
    | nil => simp [findMatchesF] at hp
    | cons c rest =>
      simp only [findMatchesF] at hp
      split at hp
      · next n heq =>
        rcases List.mem_cons.mp hp with hp | hp
        · subst hp
          have hhd := matchAlts_head execAlts_headOk heq
          rcases hhd with ⟨⟨c0, rest0, hceq, hsp⟩, hn⟩
          have hlen : i < full.length := by
            by_contra hle
            push_neg at hle
            have : full.drop i = [] := List.drop_eq_nil_of_le hle
            rw [← hcs] at this
            simp at this
          exact ⟨hlen, hn, c0, rest0, hcs ▸ hceq, hsp⟩
        · have hdrop : (c :: rest).drop (max n 1) = full.drop (i + max n 1) := by
            rw [hcs, List.drop_drop]
          exact ih _ _ hdrop p hp
      · have hdrop : rest = full.drop (i + 1) := by
          have h3 : full.drop (i + 1) = (full.drop i).drop 1 := (List.drop_drop 1 i full).symm
          rw [← hcs] at h3
          simpa using h3.symm
        exact ih _ _ hdrop p hp

theorem findMatches_spec (full : Str) :
    ∀ p ∈ findMatches execAlts full,
      p.1 < full.length ∧ 1 ≤ p.2 ∧
        ∃ c rest, full.drop p.1 = c :: rest ∧ pySpace c = false :=
  findMatchesF_spec full full.length full 0 (by simp)

theorem snippetAt_ne_nil {full : Str} {p : Nat × Nat}
    (h1 : p.1 < full.length) (h2 : 1 ≤ p.2)
    (h3 : ∃ c rest, full.drop p.1 = c :: rest ∧ pySpace c = false) :
    snippetAt full p ≠ [] := by
  rcases h3 with ⟨c, rest, hdrop, hsp⟩
  have hc : c ∈ listSlice full (p.1 - 120) (min full.length (p.1 + p.2 + 200)) := by
    unfold listSlice
    have hget : full[p.1]? = some c := by
      rw [← List.head?_drop, hdrop, List.head?_cons]
    refine @List.getElem?_mem _ _ (p.1 - (p.1 - 120)) _ ?_
    rw [List.getElem?_drop, List.getElem?_take]
    have hidx : p.1 - 120 + (p.1 - (p.1 - 120)) = p.1 := by omega
    rw [hidx]
    have hlt : p.1 < min full.length (p.1 + p.2 + 200) := by omega
    simp [hlt, hget]
  exact pyStrip_ne_nil_of_mem hc hsp

theorem scanHidden_ne_nil {t s : Str} (h : scanHidden t = some s) : s ≠ [] := by
  unfold scanHidden at h
  rcases Option.map_eq_some'.mp h with ⟨p, hfind, hs⟩
  have hp := List.mem_of_find?_eq_some hfind
  have := findMatches_spec t p hp
  subst hs
  exact snippetAt_ne_nil this.1 this.2.1 this.2.2

theorem detect_hidden_errors_ne_nil {a e s : Str}
    (h : detect_hidden_errors a e = some s) : s ≠ [] := by
  unfold detect_hidden_errors at h
  split at h
  · next heq =>
    cases h
    split at heq
    · exact absurd heq (by simp)
    · exact scanHidden_ne_nil heq
  · split at h
    · next heq =>
      cases h
      split at heq
      · exact absurd heq (by simp)
      · exact scanHidden_ne_nil heq
    · split at h
      · cases h; decide
      · exact absurd h (by simp)

theorem scanHidden_eq_none_of_all_benign {t : Str}
    (h : all_matches_benign t = true) : scanHidden t = none := by
  unfold scanHidden
  have : (findMatches execAlts t).find? (qualifyingMatch t) = none := by
    rw [List.find?_eq_none]
    intro p hp
    have := (List.all_eq_true.mp h) p hp
    simp only [qualifyingMatch]
    simp [this]
  simp [this]

/-!
## Script Normalizer
(`_strip_markdown_code_fences`, `_unwrap_playwright_script_to_page_only`)
-/

def strip_markdown_code_fences (text : Str) : Str :=
  let t := pyStrip text
  if (str "```").isPrefixOf t then
    let lines := (splitLines t).drop 1
    let lines2 :=
      match lines.getLast? with
      | some last => if (str "```").isPrefixOf (pyStrip last) then lines.dropLast else lines
      | none => lines
    pyStrip (joinLines lines2)
  else t

/-- Minimal-gap search for a lazy group `([\s\S]*?)` followed by a token tail:
returns the gap length and the remainder after the tail. -/
def lazyGroup (tail : List RTok) : Str → Option (Nat × Str)
  | [] => (matchToks tail []).map (fun r => (0, r))
  | c :: cs =>
    match matchToks tail (c :: cs) with
    | some r => some (0, r)
    | none => (lazyGroup tail cs).map (fun pr => (pr.1 + 1, pr.2))

/-- Match prefix tokens, then a lazy group, then tail tokens, at the front;
returns the group. -/
def tryWrappedAt (pre tail : List RTok) (s : Str) : Option Str :=
  (matchToks pre s).bind (fun rem => (lazyGroup tail rem).map (fun pr => rem.take pr.1))

/-- `re.search` of prefix + lazy group + tail: leftmost start wins. -/
def searchWrapped (pre tail : List RTok) : Str → Option Str
  | [] => tryWrappedAt pre tail []
  | c :: cs =>
    match tryWrappedAt pre tail (c :: cs) with
    | some g => some g
    | none => searchWrapped pre tail cs

/-- `async\s*function\s*\(\s*page\s*,\s*context\s*,\s*browser\s*\)\s*\{` -/
def preFnWrap : List RTok :=
  [.lit (str "async"), .ws0, .lit (str "function"), .ws0, .lit (str "("), .ws0,
    .lit (str "page"), .ws0, .lit (str ","), .ws0, .lit (str "context"), .ws0,
    .lit (str ","), .ws0, .lit (str "browser"), .ws0, .lit (str ")"), .ws0,
    .lit [lbrace]]

/-- `\}\s*\)\s*\(\s*page\s*,\s*context\s*,\s*browser\s*\)` -/
def tailFnWrap : List RTok :=
  [.lit [rbrace], .ws0, .lit (str ")"), .ws0, .lit (str "("), .ws0,
    .lit (str "page"), .ws0, .lit (str ","), .ws0, .lit (str "context"), .ws0,
    .lit (str ","), .ws0, .lit (str "browser"), .ws0, .lit (str ")")]

/-- `async\s*\(\s*page\s*\)\s*=>\s*\{` -/
def preIife : List RTok :=
  [.lit (str "async"), .ws0, .lit (str "("), .ws0, .lit (str "page"), .ws0,
    .lit (str ")"), .ws0, .lit (str "=>"), .ws0, .lit [lbrace]]

/-- `\}\s*\)\s*\(\s*page\s*\)` -/
def tailIife : List RTok :=
  [.lit [rbrace], .ws0, .lit (str ")"), .ws0, .lit (str "("), .ws0,
    .lit (str "page"), .ws0, .lit (str ")")]

/-- `\s*;?\s*$` after the closing brace of an anchored wrapper. -/
def tailEndOk (u : Str) : Bool :=
  let u1 := (munch pySpace u).2
  let u2 := if u1.head? = some ';' then u1.drop 1 else u1
  ((munch pySpace u2).2).isEmpty

/-- Greedy `([\s\S]*)\}` with tail `\s*;?\s*$`: index of the last closing
brace whose tail matches. -/
def lastCloseIdx (rem : Str) : Option Nat :=
  ((List.range rem.length).filter
    (fun j => decide ((rem.drop j).head? = some rbrace) && tailEndOk (rem.drop (j + 1)))).getLast?

/-- `^\s*(?:const\s+\w+\s*=\s*)?async\s*\(\s*page\s*\)\s*=>\s*\{([\s\S]*)\}\s*;?\s*$`
(`re.match`).  The optional `const`-declaration group is committed when it
parses: the no-group alternative then needs `async` where the text has
`const`, so backtracking cannot succeed either. -/
def arrowConstSkip (s0 : Str) : Str :=
  match matchToks [.lit (str "const"), .ws1] s0 with
  | some r =>
    if (munch isWordChar r).1 = 0 then s0
    else
      match matchToks [.ws0, .lit (str "="), .ws0] (munch isWordChar r).2 with
      | some r2 => r2
      | none => s0
  | none => s0

def matchArrowDecl (t : Str) : Option Str :=
  match matchToks [.lit (str "async"), .ws0, .lit (str "("), .ws0, .lit (str "page"),
      .ws0, .lit (str ")"), .ws0, .lit (str "=>"), .ws0, .lit [lbrace]]
      (arrowConstSkip ((munch pySpace t).2)) with
  | none => none
  | some rem =>
    match lastCloseIdx rem with
    | some j => some (rem.take j)
    | none => none

/-- `^\s*async\s+function\s*\(\s*page\s*\)\s*\{([\s\S]*)\}\s*;?\s*$` (`re.match`). -/
def matchAsyncFnDecl (t : Str) : Option Str :=
  match matchToks [.lit (str "async"), .ws1, .lit (str "function"), .ws0,
      .lit (str "("), .ws0, .lit (str "page"), .ws0, .lit (str ")"), .ws0,
      .lit [lbrace]] ((munch pySpace t).2) with
  | none => none
  | some rem =>
    match lastCloseIdx rem with
    | some j => some (rem.take j)
    | none => none

/-- One pass of the unwrap loop body: the four wrapper greps in source
order; a hit yields the stripped group. -/
def unwrap_once (t : Str) : Option Str :=
  match searchWrapped preFnWrap tailFnWrap t with
  | some g => some (pyStrip g)
  | none =>
    match searchWrapped preIife tailIife t with
    | some g => some (pyStrip g)
    | none =>
      match matchArrowDecl t with
      | some g => some (pyStrip g)
      | none =>
        match matchAsyncFnDecl t with
        | some g => some (pyStrip g)
        | none => none

def unwrap_loop : Nat → Str → Str
  | 0, t => t
  | k + 1, t =>
    match unwrap_once t with
    | some t2 => unwrap_loop k t2
    | none => t

/-- Word-boundary test for a literal at the front of the text. -/
def boundaryWordAt (w : Str) (s : Str) : Bool :=
  w.isPrefixOf s &&
    (match s.drop w.length with
     | [] => true
     | c :: _ => !isWordChar c)

/-- `re.search(r"\bcontext\b|\bbrowser\b", text)` (case-sensitive), tracking
whether the previous character is a word character. -/
def hasCBWord : Bool → Str → Bool
  | _, [] => false
  | prevW, c :: cs =>
    (!prevW && (boundaryWordAt (str "context") (c :: cs) ||
      boundaryWordAt (str "browser") (c :: cs))) ||
    hasCBWord (isWordChar c) cs

def has_context_or_browser (s : Str) : Bool := hasCBWord false s

def cbPrologue : Str := str "const context = undefined;\nconst browser = undefined;\n"

def unwrap_playwright_script_to_page_only (script : Str) : Str :=
  let text := pyStrip script
  if text.isEmpty then []
  else
    let text2 := pyStrip (strip_markdown_code_fences text)
    let text3 := unwrap_loop 3 text2
    let text4 := if has_context_or_browser text3 then cbPrologue ++ text3 else text3
    pyStrip text4

/-!
## URL rewriting (`rewrite_localhost_url`, `_rewrite_localhost_in_text`)

`urllib.parse` (CPython 3.11) restricted to what the rewrite exercises.
`_checknetloc` (which only raises for netlocs whose NFKC normalisation
introduces reserved characters — outside the modelled ASCII scope) is a
no-op here, and any bracketed netloc is modelled as the `ValueError` path:
inside `rewrite_localhost_url` both that exception and a successfully
parsed bracketed (IPv6) host return the same value, since a bracketed
hostname is never one of the rewrite's loopback names.
-/

def squote : Char := Char.ofNat 39

/-- WHATWG C0-control-or-space class (`urlsplit` lstrips these). -/
def isC0OrSpace (c : Char) : Bool := c.toNat ≤ 32

/-- `_UNSAFE_URL_BYTES_TO_REMOVE` = tab, CR, LF. -/
def isTabCRLF (c : Char) : Bool := c == '\t' || c == '\r' || c == '\n'

/-- `urlsplit` preprocessing: lstrip C0-or-space, then delete tab/CR/LF. -/
def processUrl (s : Str) : Str :=
  (s.dropWhile isC0OrSpace).filter (fun c => !isTabCRLF c)

def schemeChar (c : Char) : Bool :=
  c.isAlpha || c.isDigit || c == '+' || c == '-' || c == '.'

/-- Scheme detection of `urlsplit` (default scheme `""`). -/
def splitScheme (u : Str) : Str × Str :=
  match firstIdxOf ':' u with
  | some i =>
    if 0 < i ∧ (match u.head? with | some c => c.isAlpha | none => false) = true ∧
        (u.take i).all schemeChar = true then
      (lowerStr (u.take i), u.drop (i + 1))
    else ([], u)
  | none => ([], u)

def notNetlocEnd (c : Char) : Bool := !(c == '/' || c == '?' || c == '#')

/-- `_splitnetloc(url, 2)`. -/
def splitNetloc (u : Str) : Str × Str :=
  let rest := u.drop 2
  (rest.takeWhile notNetlocEnd, rest.dropWhile notNetlocEnd)

structure UrlSplitRec where
  scheme : Str
  netloc : Str
  path : Str
  query : Str
  fragment : Str
deriving Repr, DecidableEq

/-- `urlsplit` (allow_fragments=True); `none` is the `ValueError` path. -/
def urlsplitE (url : Str) : Option UrlSplitRec :=
  let u := processUrl url
  let sc := splitScheme u
  let nl : Option (Str × Str) :=
    if (str "//").isPrefixOf sc.2 then
      let p := splitNetloc sc.2
      if p.1.contains '[' || p.1.contains ']' then none else some p
    else some ([], sc.2)
  match nl with
  | none => none
  | some (netloc, u2) =>
    let pf := partitionChar '#' u2
    let pq := partitionChar '?' pf.1
    some ⟨sc.1, netloc, pq.1, pq.2, pf.2⟩

def usesParams : List Str :=
  [[], str "ftp", str "hdl", str "prospero", str "http", str "imap",
    str "https", str "shttp", str "rtsp", str "rtsps", str "rtspu",
    str "sip", str "sips", str "mms", str "sftp", str "tel"]

def usesNetloc : List Str :=
  [[], str "ftp", str "http", str "gopher", str "nntp", str "telnet",
    str "imap", str "wais", str "file", str "mms", str "https", str "shttp",
    str "snews", str "prospero", str "rtsp", str "rtsps", str "rtspu",
    str "rsync", str "svn", str "svn+ssh", str "sftp", str "nfs", str "git",
    str "git+ssh", str "ws", str "wss"]

/-- `_splitparams`. -/
def splitparams (u : Str) : Str × Str :=
  if u.contains '/' then
    match lastIdxOf '/' u with
    | some r =>
      match firstIdxOf ';' (u.drop r) with
      | some k => (u.take (r + k), u.drop (r + k + 1))
      | none => (u, [])
    | none => (u, [])
  else
    match firstIdxOf ';' u with
    | some i => (u.take i, u.drop (i + 1))
    | none => (u, [])

structure UrlParseRec where
  scheme : Str
  netloc : Str
  path : Str
  params : Str
  query : Str
  fragment : Str
deriving Repr, DecidableEq

/-- `urlparse`; `none` is the `ValueError` path. -/
def urlparseE (url : Str) : Option UrlParseRec :=
  match urlsplitE url with
  | none => none
  | some s =>
    if usesParams.contains s.scheme ∧ s.path.contains ';' then
      let pp := splitparams s.path
      some ⟨s.scheme, s.netloc, pp.1, pp.2, s.query, s.fragment⟩
    else some ⟨s.scheme, s.netloc, s.path, [], s.query, s.fragment⟩

/-- `urlunsplit`. -/
def urlunsplitS (scheme netloc path query fragment : Str) : Str :=
  let url := path
  let url :=
    if ¬netloc.isEmpty ∨
        (¬scheme.isEmpty ∧ usesNetloc.contains scheme ∧ ¬((str "//").isPrefixOf url)) then
      (str "//") ++ netloc ++ (if ¬url.isEmpty ∧ url.head? ≠ some '/' then '/' :: url else url)
    else url
  let url := if ¬scheme.isEmpty then scheme ++ ':' :: url else url
  let url := if ¬query.isEmpty then url ++ '?' :: query else url
  if ¬fragment.isEmpty then url ++ '#' :: fragment else url

/-- `urlunparse` / `ParseResult.geturl`. -/
def urlunparseR (p : UrlParseRec) : Str :=
  let u := if ¬p.params.isEmpty then p.path ++ ';' :: p.params else p.path
  urlunsplitS p.scheme p.netloc u p.query p.fragment

/-- `SplitResult.hostname` on a netloc: text after the last `@`, then the
bracketed host or the part before `:`, lower-cased before any `%` zone;
Python's `None` (empty hostname) is collapsed to `""`, which the rewrite's
set-membership test treats identically. -/
def hostnameOf (netloc : Str) : Str :=
  let hostinfo :=
    match lastIdxOf '@' netloc with
    | some i => netloc.drop (i + 1)
    | none => netloc
  let host :=
    if hostinfo.contains '[' then
      ((hostinfo.dropWhile (· ≠ '[')).drop 1).takeWhile (· ≠ ']')
    else hostinfo.takeWhile (· ≠ ':')
  if host.isEmpty then []
  else
    let pp := partitionChar '%' host
    if host.contains '%' then lowerStr pp.1 ++ '%' :: pp.2 else lowerStr host

/-- `re.match` of `^(?:localhost|127\.0\.0\.1|0\.0\.0\.0)(?::\d{2,5})?(?:/|$)`.
The greedy `\d{2,5}` with backtracking collapses to: take all digits after
the colon, require the count in `[2,5]` (any shorter take is followed by a
digit, which `(?:/|$)` rejects). -/
def bareLoopbackPre (s : Str) : Bool :=
  let afterOk : Str → Bool := fun r => r.isEmpty || r.head? == some '/'
  let tryHost : Str → Bool := fun h =>
    h.isPrefixOf s &&
      (let rest := s.drop h.length
       (match rest with
        | ':' :: r2 =>
          let d := munch Char.isDigit r2
          decide (2 ≤ d.1 ∧ d.1 ≤ 5) && afterOk d.2
        | _ => false)
       || afterOk rest)
  tryHost (str "localhost") || tryHost (str "127.0.0.1") || tryHost (str "0.0.0.0")

/-- `INTERNAL_FRONTEND_BASE_URL` (environment default `http://frontend:5173`). -/
def INTERNAL_FRONTEND_BASE_URL : Str := str "http://frontend:5173"

/-- The rewrite's loopback host set. -/
def loopbackHosts : List Str := [str "localhost", str "127.0.0.1", str "0.0.0.0"]

/-- The scheme-prepending normalisation for bare loopback hosts
(`if "://" not in raw and re.match(...): raw = f"http://{raw}"`). -/
def prependIfBare (raw : Str) : Str :=
  if !strContains raw (str "://") && bareLoopbackPre raw then
    str "http://" ++ raw
  else raw

def rewrite_localhost_url (url : Str) : Str :=
  let raw0 := pyStrip url
  if raw0.isEmpty then raw0
  else
    let raw := prependIfBare raw0
    match urlparseE raw with
    | none => raw
    | some p =>
      if ¬p.scheme.isEmpty ∧ ¬p.netloc.isEmpty ∧ hostnameOf p.netloc ∈ loopbackHosts then
        match urlparseE INTERNAL_FRONTEND_BASE_URL with
        | none => raw
        | some ip =>
          if ¬ip.scheme.isEmpty ∧ ¬ip.netloc.isEmpty then
            urlunparseR ⟨ip.scheme, ip.netloc, p.path, p.params, p.query, p.fragment⟩
          else raw
      else raw

/-- The regex word boundary seen from the left: the position is a boundary
when the following text is empty or opens with a non-word character. -/
def wordBoundary : Str → Bool
  | [] => true
  | c :: _ => !isWordChar c

/-- One alternative of `_BARE_LOCALHOST_RE` at the current position: the
host literal, an optional `:\d{2,5}`, and the trailing `\b`, which
backtracks to the bare host when the port variant is not followed by a
boundary. -/
def tryHostAt (h s : Str) : Option Nat :=
  if h.isPrefixOf s then
    let rest := s.drop h.length
    match rest with
    | ':' :: r2 =>
      let d := munch Char.isDigit r2
      if (2 ≤ d.1 ∧ d.1 ≤ 5) ∧ wordBoundary d.2 = true then some (h.length + 1 + d.1)
      else if wordBoundary rest then some h.length else none
    | _ => if wordBoundary rest then some h.length else none
  else none

/-- `_BARE_LOCALHOST_RE` match at the current position (the caller tracks
the word-boundary on the left); returns the match length. -/
def matchBareAt (s : Str) : Option Nat :=
  match tryHostAt (str "localhost") s with
  | some n => some n
  | none =>
    match tryHostAt (str "127.0.0.1") s with
    | some n => some n
    | none => tryHostAt (str "0.0.0.0") s

/-- `re.sub` scan for `_BARE_LOCALHOST_RE`, replacing each match by
`rewrite_localhost_url(match)`.  After a match the previous character is a
digit or the last host letter, hence a word character. -/
def bareSubGo : Nat → Bool → Str → Str
  | 0, _, s => s
  | _ + 1, _, [] => []
  | fuel + 1, prevW, c :: cs =>
    match (if prevW then none else matchBareAt (c :: cs)) with
    | some len =>
      rewrite_localhost_url ((c :: cs).take len) ++ bareSubGo fuel true ((c :: cs).drop len)
    | none => c :: bareSubGo fuel (isWordChar c) cs

def rewrite_localhost_in_text (text : Str) : Str :=
  if text.isEmpty then text else bareSubGo text.length false text

/-!
## Action-log compiler (`_split_args`, `_ACTION_LINE_RE`,
`build_script_from_actions_log`, `_js_single_quoted`)
-/

def js_single_quoted (value : Str) : Str :=
  let v := pyStrip value
  let v :=
    if 2 ≤ v.length ∧
        ((v.head? = some squote ∧ v.getLast? = some squote) ∨
         (v.head? = some '"' ∧ v.getLast? = some '"')) then
      (v.drop 1).dropLast
    else v
  let v := v.flatMap (fun c => if c = '\\' then ['\\', '\\'] else [c])
  let v := v.flatMap (fun c => if c = squote then ['\\', squote] else [c])
  squote :: v ++ [squote]

/-- The quote-and-escape-aware comma splitter, state threaded exactly as in
the source loop. -/
def split_args_go : Str → Str → Option Char → Bool → List Str → List Str
  | [], current, _, _, args =>
    let tail := pyStrip current
    if tail.isEmpty then args.reverse else (tail :: args).reverse
  | ch :: rest, current, quote, escape, args =>
    if escape then split_args_go rest (current ++ [ch]) quote false args
    else if ch = '\\' then split_args_go rest (current ++ [ch]) quote true args
    else
      match quote with
      | some q =>
        if ch = q then split_args_go rest (current ++ [ch]) none false args
        else split_args_go rest (current ++ [ch]) (some q) false args
      | none =>
        if ch = squote ∨ ch = '"' then
          split_args_go rest (current ++ [ch]) (some ch) false args
        else if ch = ',' then
          let part := pyStrip current
          split_args_go rest [] none false (if part.isEmpty then args else part :: args)
        else split_args_go rest (current ++ [ch]) none false args

def split_args (arg_text : Str) : List Str :=
  let s := pyStrip arg_text
  if s.isEmpty then [] else split_args_go s [] none false []

def isNameStart (c : Char) : Bool := c.isAlpha || c == '_'

def isNameChar (c : Char) : Bool := c.isAlpha || c.isDigit || c == '_' || c == '-'

/-- `\s*(?:-|$)` after the closing parenthesis. -/
def action_tail_ok (r : Str) : Bool :=
  let r1 := (munch pySpace r).2
  r1.isEmpty || r1.head? == some '-'

/-- `_ACTION_LINE_RE.match(line)`: name and args groups.  The greedy `.*`
commits to the last `)` whose tail matches `\s*(?:-|$)`; `.` does not cross
a newline. -/
def action_line_match (line : Str) : Option (Str × Str) :=
  if (str "Action:").isPrefixOf line then
    let r0 := (munch pySpace (line.drop 7)).2
    match r0 with
    | [] => none
    | c :: cs =>
      if isNameStart c then
        let nm := munch isNameChar cs
        let name := c :: cs.take nm.1
        match nm.2 with
        | '(' :: rest =>
          match ((List.range rest.length).filter (fun j =>
              decide ((rest.drop j).head? = some ')') &&
              !(rest.take j).contains '\n' &&
              action_tail_ok (rest.drop (j + 1)))).getLast? with
          | some j => some (name, rest.take j)
          | none => none
        | _ => none
      else none
  else none

/-- One line of the action-log loop body. -/
def compile_action_line (raw_line : Str) : Option Str :=
  let line := pyStrip raw_line
  if ¬(str "Action:").isPrefixOf line then none
  else
    match action_line_match line with
    | none => none
    | some (name, argsRaw) =>
      let args := (split_args (pyStrip argsRaw)).map pyStrip
      -- the source strips a second time into `cleaned_args`
      let args := args.map pyStrip
      if (name = str "navigate" ∨ name = str "goto") ∧ ¬args.isEmpty then
        args.head?.map (fun a =>
          str "await page.goto(" ++ js_single_quoted (rewrite_localhost_url a) ++ str ");")
      else if name = str "click" ∧ ¬args.isEmpty then
        args.head?.map (fun a => str "await page.click(" ++ js_single_quoted a ++ str ");")
      else if (name = str "fill" ∨ name = str "type") ∧ 2 ≤ args.length then
        match args with
        | a :: b :: _ =>
          some (str "await page.fill(" ++ js_single_quoted a ++ str ", " ++
            js_single_quoted b ++ str ");")
        | _ => none
      else if (name = str "press" ∨ name = str "press_key") ∧ ¬args.isEmpty then
        args.head?.map (fun a =>
          str "await page.keyboard.press(" ++ js_single_quoted a ++ str ");")
      else if name = str "wait" ∧ ¬args.isEmpty then
        args.head?.map (fun a =>
          let ms_text := stripWhile (fun c => c == '"' || c == squote) (pyStrip a)
          let ms := if pyIsDigits ms_text then natOfDigits ms_text else 1000
          str "await page.waitForTimeout(" ++ str (toString ms) ++ str ");")
      else none

def build_script_from_actions_log (actions_taken : Str) : Str :=
  if actions_taken.isEmpty then str "// No actions captured"
  else
    let script_lines := (splitLines actions_taken).filterMap compile_action_line
    let joined := joinLines script_lines
    if joined.isEmpty then str "// No actions captured" else joined

/-!
## Heuristic fallback script (`build_fallback_script_from_steps`)
-/

/-- `_URL_RE` search at one position: `https?://[^\s)\]}]+` (greedy `s?`). -/
def matchUrlAt (s : Str) : Option Str :=
  let tryScheme : Str → Option Str := fun pre =>
    if pre.isPrefixOf s then
      let rest := s.drop pre.length
      let t := rest.takeWhile (fun c => !(pySpace c || c == ')' || c == ']' || c == rbrace))
      if t.isEmpty then none else some (pre ++ t)
    else none
  match tryScheme (str "https://") with
  | some u => some u
  | none => tryScheme (str "http://")

def searchUrl : Str → Option Str
  | [] => none
  | c :: cs =>
    match matchUrlAt (c :: cs) with
    | some u => some u
    | none => searchUrl cs

/-- `_BARE_LOCALHOST_RE.search`, tracking the left word boundary. -/
def searchBareGo : Bool → Str → Option Str
  | _, [] => none
  | prevW, c :: cs =>
    match (if prevW then none else matchBareAt (c :: cs)) with
    | some len => some ((c :: cs).take len)
    | none => searchBareGo (isWordChar c) cs

def search_bare_localhost (s : Str) : Option Str := searchBareGo false s

/-- First digit run, `re.search(r"(\d+)", s)`. -/
def searchDigits : Str → Option Str
  | [] => none
  | c :: cs =>
    if c.isDigit then some (c :: cs.takeWhile Char.isDigit) else searchDigits cs

/-- A step list item: a step dict (with `action` / `expected_result` keys,
`None` collapsed to `""`) or any other object via `str(step)`. -/
inductive StepLike where
  | dict (action : Str) (expected : Str)
  | plain (s : Str)
deriving Repr, DecidableEq

/-- The `steps` argument: `None`, a string, or a list.  A bare non-list,
non-string object travels through the source as the one-element list
`[steps]`, which `listI [StepLike.plain _]` covers. -/
inductive StepsInput where
  | noneI
  | strI (s : Str)
  | listI (l : List StepLike)
deriving Repr, DecidableEq

def stepsFalsy : StepsInput → Bool
  | .noneI => true
  | .strI s => s.isEmpty
  | .listI l => l.isEmpty

def stepAction : StepLike → Str
  | .dict a _ => pyStrip a
  | .plain s => pyStrip s

def stepExpected : StepLike → Str
  | .dict _ e => pyStrip e
  | .plain _ => []

/-- Lines emitted for step number `i` (1-based). -/
def fallbackStepLines (i : Nat) (step : StepLike) : List Str :=
  let action := stepAction step
  let expected := stepExpected step
  if action.isEmpty then []
  else
    let base := (str "// Step " ++ str (toString i) ++ str ": " ++ action) ::
      (if expected.isEmpty then [] else [str "// Expected: " ++ expected])
    match searchUrl action with
    | some u =>
      base ++ [str "await page.goto(" ++ js_single_quoted (rewrite_localhost_url u) ++ str ");"]
    | none =>
      match search_bare_localhost action with
      | some m =>
        base ++ [str "await page.goto(" ++ js_single_quoted (rewrite_localhost_url m) ++ str ");"]
      | none =>
        let lowered := lowerStr action
        if strContains lowered (str "wait") then
          match searchDigits lowered with
          | some ds =>
            let ms := natOfDigits ds
            let ms := if strContains lowered (str "second") ∧ ms < 1000 then ms * 1000 else ms
            base ++ [str "await page.waitForTimeout(" ++ str (toString ms) ++ str ");"]
          | none => base ++ [str "await page.waitForTimeout(1000);"]
        else base

def build_fallback_script_from_steps (steps : StepsInput) : Str :=
  if stepsFalsy steps then str "// TODO: No steps provided"
  else
    let steps_iter : List StepLike :=
      match steps with
      | .noneI => []
      | .strI s => [.plain s]
      | .listI l => l
    let body := (steps_iter.enum.map (fun p => fallbackStepLines (p.1 + 1) p.2)).flatten
    joinLines (body ++ [str "await page.waitForTimeout(1000);"])

/-!
## Knowledge-Graph Compressor (`_build_knowledge_graph_prompt_block`)

The graph dict is modelled structurally; `.get(key, default)` fields are
plain fields with the empty default.
-/

structure PageInfo where
  description : Str
  also : Str
  key_buttons : List Str
  filters : List Str
  dialogs : List Str
  empty_state : Str
deriving Repr, DecidableEq

structure NavItem where
  label : Str
  route : Str
deriving Repr, DecidableEq

structure KnowledgeGraph where
  app_name : Str
  framework : Str
  base_url_docker : Str
  selector_strategy : Str
  nav_items : List NavItem
  pages : List (Str × PageInfo)
  common_button_labels : List Str
  aria_labels : List Str
deriving Repr

/-- The per-page keyword list: the stripped lower route, the slash-free
form, and the domain synonym lists, in source order. -/
def pageKeywords (route : Str) : List Str :=
  let route_lower := stripWhile (fun c => c == '/') (lowerStr route)
  [route_lower, route_lower.filter (· ≠ '/')] ++
    (if strContains route_lower (str "requirement") then
      [str "requirement", str "requirements"] else []) ++
    (if strContains route_lower (str "testcase") || strContains route_lower (str "test") then
      [str "test case", str "testcase", str "test cases"] else []) ++
    (if strContains route_lower (str "automation") then
      [str "automation", str "automations"] else []) ++
    (if strContains route_lower (str "release") then
      [str "release", str "releases"] else []) ++
    (if strContains route_lower (str "execution") then
      [str "execution", str "executions", str "execute"] else [])

/-- `not lower_steps or any(kw in lower_steps for kw in keywords)`. -/
def pageIncluded (lower_steps : Str) (route : Str) : Bool :=
  lower_steps.isEmpty || (pageKeywords route).any (fun kw => strContains lower_steps kw)

/-- The filtered page dict, with the all-pages fallback when nothing
matched. -/
def relevantPages (pages : List (Str × PageInfo)) (steps_text : Str) : List (Str × PageInfo) :=
  let lower_steps := lowerStr steps_text
  let sel := pages.filter (fun pr => pageIncluded lower_steps pr.1)
  if sel.isEmpty then pages else sel

def joinCommaSp (ls : List Str) : Str :=
  match ls with
  | [] => []
  | [l] => l
  | l :: rest => l ++ str ", " ++ joinCommaSp rest

def pageBlockLines (pr : Str × PageInfo) : List Str :=
  [str "Page: " ++ pr.1, str "  Description: " ++ pr.2.description] ++
    (if ¬pr.2.also.isEmpty then [str "  Also: " ++ pr.2.also] else []) ++
    (if ¬pr.2.key_buttons.isEmpty then
      [str "  Buttons: " ++ joinCommaSp pr.2.key_buttons] else []) ++
    (if ¬pr.2.filters.isEmpty then
      [str "  Filters: " ++ joinCommaSp pr.2.filters] else []) ++
    (if ¬pr.2.dialogs.isEmpty then
      [str "  Dialogs: " ++ joinCommaSp pr.2.dialogs] else []) ++
    (if ¬pr.2.empty_state.isEmpty then
      [str "  Empty state: " ++ pr.2.empty_state] else []) ++
    [[]]

def build_knowledge_graph_prompt_block (steps_text : Str) (kg : KnowledgeGraph) : Str :=
  let headerLines : List Str :=
    [str "Application: " ++ kg.app_name ++ str " (" ++ kg.framework ++ str ")",
     str "Docker base URL: " ++ kg.base_url_docker,
     str "Selector strategy: " ++ kg.selector_strategy,
     [],
     str "Sidebar navigation links (use page.getByRole(" ++ [squote] ++ str "link" ++
       [squote] ++ str ", " ++ [lbrace] ++ str "name: " ++ [squote] ++
       str "<label>" ++ [squote] ++ [rbrace] ++ str ") to click):"] ++
    kg.nav_items.map (fun it =>
      str "  - " ++ [squote] ++ it.label ++ [squote] ++ str " → " ++ it.route) ++
    [str "  - " ++ [squote] ++ str "Admin" ++ [squote] ++
      str " → /admin  (sidebar footer)", []]
  let pageLines := (relevantPages kg.pages steps_text).map pageBlockLines
  let footerLines : List Str :=
    [str "Common button labels: " ++ joinCommaSp (kg.common_button_labels.take 15) ++ str "...",
     str "Known aria-labels: " ++ joinCommaSp kg.aria_labels]
  joinLines (headerLines ++ pageLines.flatten ++ footerLines)

/-!
## Execution client, repair controller, endpoint pipeline

External calls are oracles indexed by the attempt number; the values they
return are the parsed dicts of the source (`None`-for-string collapsed to
`""`, a falsy dict to `Option.none`).  Events record the observable calls.
-/

/-- The parsed MCP `/execute` response fields the pipeline reads. -/
structure ExecData where
  success : Bool
  actions_taken : Str
  message : Str
  error : Str
  video_saved : Bool
deriving Repr, DecidableEq

/-- Observable events of `_execute_script_with_retries`. -/
inductive RetryEv where
  | call (attempt : Nat) (timeout : Nat)
  | sleep (seconds : Nat)
deriving Repr, DecidableEq

/-- The loop body of `_execute_script_with_retries` over the remaining
iteration count `k` (the loop runs attempts `attempt .. attempt+k-1`;
`attempt < max_retries` holds exactly when `2 ≤ k`). -/
def execRetriesGo (post : Nat → Nat → Except Str ExecData) (base : Nat) :
    Nat → Nat → Except Str ExecData × List RetryEv
  | 0, _ => (.error [], [])
  | k + 1, attempt =>
    let t := base * attempt
    match post attempt t with
    | .ok d => (.ok d, [.call attempt t])
    | .error e =>
      if k = 0 then (.error e, [.call attempt t])
      else
        let r := execRetriesGo post base k (attempt + 1)
        (r.1, .call attempt t :: .sleep (min 5 attempt) :: r.2)

/-- `_execute_script_with_retries(max_retries, base_timeout)`; the `post`
oracle stands for `client.post(...); raise_for_status; json()` on a given
attempt with the timeout actually passed.  (The `k = 0` starting state
models Python falling through an empty `range`, which no call site
reaches.) -/
def execute_script_with_retries (post : Nat → Nat → Except Str ExecData)
    (max_retries base : Nat) : Except Str ExecData × List RetryEv :=
  execRetriesGo post base max_retries 1

/-- LLM text production for one repair attempt: the response text after
`(data.get("response") or data.get("output") or "").strip()`, or the raised
exception (`Except.error`). -/
abbrev LlmOracle := Nat → Except Unit Str

/-- Execution outcome for the candidate of one repair attempt. -/
abbrev ExecOracle := Nat → Except Str ExecData

/-- The hidden-error downgrade applied to a raw outcome
(`if hidden and exec_success: exec_success = False; exec_error = exec_error or hidden`). -/
def applyHiddenCheck (success : Bool) (actions error : Str) : Bool × Str :=
  match detect_hidden_errors actions error with
  | some h => if ¬h.isEmpty ∧ success then (false, pyOr error h) else (success, error)
  | none => (success, error)

/-- Effective success of one repair candidate execution
(`success = bool(...); hidden = ...; if hidden and success: success = False`). -/
def repairEffSuccess (d : ExecData) : Bool :=
  (applyHiddenCheck d.success d.actions_taken d.error).1

/-- Result of `_repair_and_rerun`: final script, `last_exec`, attempts made,
plus the list of attempts whose candidate was actually executed (the
recorded trace of executor calls). -/
structure RepairOut where
  script : Str
  lastExec : Option ExecData
  attempts : Nat
  executed : List Nat
deriving Repr, DecidableEq

/-- The repair loop over remaining iterations `k` with current attempt
number; mirrors the source's `for attempt in range(1, max_retries + 1)`
with `continue` on an empty candidate or an execution exception, `break`
(returning `max_retries`) on an LLM exception, and early return on
effective success. -/
def repairLoopGo (llm : LlmOracle) (exec : ExecOracle) (maxR : Nat) :
    Nat → Nat → Str → Option ExecData → RepairOut
  | 0, _, cur, last => ⟨cur, last, maxR, []⟩
  | k + 1, attempt, cur, last =>
    match llm attempt with
    | .error _ => ⟨cur, last, maxR, []⟩
    | .ok text =>
      let candidate := unwrap_playwright_script_to_page_only
        (strip_markdown_code_fences (pyStrip text))
      if candidate.isEmpty then repairLoopGo llm exec maxR k (attempt + 1) cur last
      else
        match exec attempt with
        | .error e =>
          let r := repairLoopGo llm exec maxR k (attempt + 1) cur
            (some ⟨false, [], [], e, false⟩)
          { r with executed := attempt :: r.executed }
        | .ok d =>
          if repairEffSuccess d then ⟨candidate, some d, attempt, [attempt]⟩
          else
            let r := repairLoopGo llm exec maxR k (attempt + 1) candidate (some d)
            { r with executed := attempt :: r.executed }

/-- `_repair_and_rerun(original_script, ..., max_retries)`. -/
def repair_and_rerun (llm : LlmOracle) (exec : ExecOracle)
    (original_script : Str) (max_retries : Nat) : RepairOut :=
  repairLoopGo llm exec max_retries max_retries 1 original_script none

/-- Observable state of `generate_automation_draft_from_execution` around
execution, hidden-error detection, and repair. -/
structure DraftState where
  script : Str
  exec_success : Bool
  actions_taken : Str
  exec_error : Str
  video_saved : Bool
deriving Repr, DecidableEq

/-- State after the initial `_execute_script_with_retries` call: either the
parsed dict (`actions_taken = .get("actions_taken") or .get("message") or ""`)
or the caught exception (`exec_error = str(e)`, the other fields keep their
initial values). -/
def initExecState (script_outline : Str) (r : Except Str ExecData) : DraftState :=
  match r with
  | .ok d => ⟨script_outline, d.success, pyOr d.actions_taken d.message, d.error, d.video_saved⟩
  | .error e => ⟨script_outline, false, [], e, false⟩

/-- The endpoint's hidden-error detection stage. -/
def applyDetectStage (s : DraftState) : DraftState :=
  let r := applyHiddenCheck s.exec_success s.actions_taken s.exec_error
  { s with exec_success := r.1, exec_error := r.2 }

/-- The endpoint's repair block.  `rep = none` models `_repair_and_rerun`
raising (nothing assigned); the inner `none` models a falsy
`repair_exec_data` (`None` or an empty dict). -/
def applyRepairStage (s : DraftState) (rep : Option (Str × Option ExecData)) : DraftState :=
  if s.exec_success then s
  else
    match rep with
    | none => s
    | some (repairedScript, repData) =>
      match repData with
      | none => s
      | some d =>
        let actions := pyOr d.actions_taken s.actions_taken
        let r := applyHiddenCheck d.success actions d.error
        { script := if r.1 then repairedScript else s.script,
          exec_success := r.1,
          actions_taken := actions,
          exec_error := r.2,
          video_saved := d.video_saved }

/-- `if not script_outline: script_outline = build_fallback_script_from_steps(steps)`. -/
def draft_script_outline (llmScript : Str) (steps : StepsInput) : Str :=
  if llmScript.isEmpty then build_fallback_script_from_steps steps else llmScript

/-- The pipeline's observable result from the initial execution outcome and
the repair block data. -/
def generate_draft_observable (script_outline : Str) (initRes : Except Str ExecData)
    (rep : Option (Str × Option ExecData)) : DraftState :=
  applyRepairStage (applyDetectStage (initExecState script_outline initRes)) rep

-- Pipeline lemmas ------------------------------------------------------------

theorem applyHiddenCheck_true {suc : Bool} {act err : Str}
    (h : (applyHiddenCheck suc act err).1 = true) :
    detect_hidden_errors act err = none ∧ suc = true ∧
      (applyHiddenCheck suc act err).2 = err := by
  unfold applyHiddenCheck at h ⊢
  revert h
  cases hd : detect_hidden_errors act err with
  | none =>
    intro h
    exact ⟨rfl, h, rfl⟩
  | some s =>
    intro h
    have hne := detect_hidden_errors_ne_nil hd
    have hie : s.isEmpty = false := by simpa [List.isEmpty_iff] using hne
    cases hsuc : suc with
    | false =>
      rw [hsuc] at h
      simp [hie] at h
    | true =>
      rw [hsuc] at h
      simp [hie] at h

theorem pyOr_ne_nil {a b : Str} (hb : b ≠ []) : pyOr a b ≠ [] := by
  unfold pyOr
  split
  · exact hb
  · next h => simpa using h

theorem joinLines_append_ne_nil (l : List Str) (x : Str) (hx : x ≠ []) :
    joinLines (l ++ [x]) ≠ [] := by
  induction l with
  | nil => simpa [joinLines] using hx
  | cons a rest ih =>
    cases hr : rest ++ [x] with
    | nil => simp at hr
    | cons b bs =>
      simp only [List.cons_append, joinLines, hr]
      cases bs with
      | nil => simp
      | cons c cs => simp

theorem build_fallback_ne_nil (steps : StepsInput) :
    build_fallback_script_from_steps steps ≠ [] := by
  unfold build_fallback_script_from_steps
  split
  · decide
  · exact joinLines_append_ne_nil _ _ (by decide)

theorem repairLoopGo_script_ne_nil (llm : LlmOracle) (exec : ExecOracle) (maxR : Nat) :
    ∀ k attempt cur last, cur ≠ [] →
      (repairLoopGo llm exec maxR k attempt cur last).script ≠ [] := by
  intro k
  induction k with
  | zero => intro attempt cur last hcur; simpa [repairLoopGo] using hcur
  | succ k ih =>
    intro attempt cur last hcur
    simp only [repairLoopGo]
    split
    · simpa using hcur
    · next text heq =>
      split
      · exact ih _ _ _ hcur
      · next hcand =>
        split
        · exact ih _ _ _ hcur
        · next d hexec =>
          split
          · simpa using hcand
          · exact ih _ _ _ (by simpa using hcand)

theorem repair_and_rerun_script_ne_nil (llm : LlmOracle) (exec : ExecOracle)
    (orig : Str) (m : Nat) (h : orig ≠ []) :
    (repair_and_rerun llm exec orig m).script ≠ [] :=
  repairLoopGo_script_ne_nil llm exec m m 1 orig none h

-- C1 -------------------------------------------------------------------------

/-- C1: if the Hidden-Error Detector returns a snippet while the executor
reported success, the effective result is downgraded to failure with an
error message assigned; and for the pipeline's final state, effective
success implies the detector finds nothing in the returned transcript and
error text. -/
theorem C1_hidden_error_downgrade :
    (∀ (act err h : Str), detect_hidden_errors act err = some h →
      applyHiddenCheck true act err = (false, pyOr err h) ∧ pyOr err h ≠ []) ∧
    (∀ (script_outline : Str) (initRes : Except Str ExecData)
        (rep : Option (Str × Option ExecData)),
      (generate_draft_observable script_outline initRes rep).exec_success = true →
      detect_hidden_errors (generate_draft_observable script_outline initRes rep).actions_taken
        (generate_draft_observable script_outline initRes rep).exec_error = none) := by
  constructor
  · intro act err h hd
    have hne := detect_hidden_errors_ne_nil hd
    constructor
    · unfold applyHiddenCheck
      rw [hd]
      simp [List.isEmpty_iff, hne]
    · exact pyOr_ne_nil hne
  · intro o initRes rep hsuc
    have key : ∀ s : DraftState, (applyDetectStage s).exec_success = true →
        detect_hidden_errors (applyDetectStage s).actions_taken
          (applyDetectStage s).exec_error = none := by
      intro s hs
      have h3 := @applyHiddenCheck_true s.exec_success
        s.actions_taken s.exec_error hs
      show detect_hidden_errors s.actions_taken
        (applyHiddenCheck s.exec_success s.actions_taken s.exec_error).2 = none
      rw [h3.2.2]
      exact h3.1
    unfold generate_draft_observable at hsuc ⊢
    unfold applyRepairStage at hsuc ⊢
    by_cases h1 : (applyDetectStage (initExecState o initRes)).exec_success = true
    · rw [if_pos h1] at hsuc ⊢
      exact key _ h1
    · rw [if_neg h1] at hsuc ⊢
      match rep with
      | none => exact absurd hsuc h1
      | some (sc, none) => exact absurd hsuc h1
      | some (sc, some d) =>
        have h2 : (applyHiddenCheck d.success
            (pyOr d.actions_taken (applyDetectStage (initExecState o initRes)).actions_taken)
            d.error).1 = true := hsuc
        have h3 := applyHiddenCheck_true h2
        show detect_hidden_errors _ ((applyHiddenCheck _ _ _).2) = none
        rw [h3.2.2]
        exact h3.1

/-- C1 witness: a detector hit downgrades a successful outcome, and a
concrete pipeline run that ends successful has a clean transcript. -/
theorem C1_hidden_error_downgrade_witness :
    (applyHiddenCheck true (str "TypeError: boom") [] =
      (false, pyOr [] (str "TypeError: boom")) ∧ pyOr [] (str "TypeError: boom") ≠ []) ∧
    detect_hidden_errors
      (generate_draft_observable (str "await page.goto(x);")
        (.ok ⟨true, str "Action: goto(x) - ok", [], [], true⟩) none).actions_taken
      (generate_draft_observable (str "await page.goto(x);")
        (.ok ⟨true, str "Action: goto(x) - ok", [], [], true⟩) none).exec_error = none :=
  ⟨C1_hidden_error_downgrade.1 (str "TypeError: boom") [] (str "TypeError: boom") (by decide),
   C1_hidden_error_downgrade.2 (str "await page.goto(x);")
     (.ok ⟨true, str "Action: goto(x) - ok", [], [], true⟩) none (by decide)⟩

-- C4 -------------------------------------------------------------------------

/-- C4: when every error-pattern match in the transcript and the error text
sits in benign context and the transcript does not show the about:blank
marker, the detector returns nothing and the effective success equals the
raw executor success (no false downgrade). -/
theorem C4_benign_no_downgrade (raw : Bool) (act err : Str)
    (hact : all_matches_benign act = true)
    (herr : all_matches_benign err = true)
    (hblank : strContains act aboutBlankNeedle = false) :
    detect_hidden_errors act err = none ∧
      applyHiddenCheck raw act err = (raw, err) := by
  have hd : detect_hidden_errors act err = none := by
    unfold detect_hidden_errors
    have h1 : (if act.isEmpty then none else scanHidden act) = none := by
      split
      · rfl
      · exact scanHidden_eq_none_of_all_benign hact
    have h2 : (if err.isEmpty then none else scanHidden err) = none := by
      split
      · rfl
      · exact scanHidden_eq_none_of_all_benign herr
    rw [h1, h2]
    simp [hblank]
  refine ⟨hd, ?_⟩
  unfold applyHiddenCheck
  rw [hd]

/-- C4 witness: a transcript whose only error-pattern hit lies inside
WebSocket noise is not flagged and does not downgrade success. -/
theorem C4_benign_no_downgrade_witness :
    detect_hidden_errors (str "TimeoutError: WebSocket connection refused") [] = none ∧
      applyHiddenCheck true (str "TimeoutError: WebSocket connection refused") [] =
        (true, []) :=
  C4_benign_no_downgrade true (str "TimeoutError: WebSocket connection refused") []
    (by decide) (by decide) (by decide)

-- C5 -------------------------------------------------------------------------

/-- C5: the heuristic fallback always yields a non-empty script, the
endpoint substitutes it exactly when LLM synthesis produced nothing, and
the pipeline's final script — through detection and repair — is never the
empty string. -/
theorem C5_fallback_nonempty :
    (∀ steps : StepsInput, build_fallback_script_from_steps steps ≠ []) ∧
    (∀ (llmScript : Str) (steps : StepsInput),
      draft_script_outline llmScript steps ≠ [] ∧
      (llmScript = [] → draft_script_outline llmScript steps =
        build_fallback_script_from_steps steps)) ∧
    (∀ (llmScript : Str) (steps : StepsInput) (initRes : Except Str ExecData)
        (llm : LlmOracle) (exec : ExecOracle) (dOpt : Option ExecData),
      (generate_draft_observable (draft_script_outline llmScript steps) initRes none).script ≠ [] ∧
      (generate_draft_observable (draft_script_outline llmScript steps) initRes
        (some ((repair_and_rerun llm exec (draft_script_outline llmScript steps) 2).script,
          dOpt))).script ≠ []) := by
  have houtline : ∀ (llmScript : Str) (steps : StepsInput),
      draft_script_outline llmScript steps ≠ [] := by
    intro llmScript steps
    unfold draft_script_outline
    split
    · exact build_fallback_ne_nil steps
    · next h => simpa using h
  have hfinal : ∀ (o : Str) (initRes : Except Str ExecData)
      (rep : Option (Str × Option ExecData)), o ≠ [] →
      (∀ sc d, rep = some (sc, d) → sc ≠ []) →
      (generate_draft_observable o initRes rep).script ≠ [] := by
    intro o initRes rep ho hrep
    unfold generate_draft_observable applyRepairStage
    have hscript : (applyDetectStage (initExecState o initRes)).script = o := by
      cases initRes <;> rfl
    split
    · rw [hscript]; exact ho
    · match rep with
      | none => rw [hscript]; exact ho
      | some (sc, none) => rw [hscript]; exact ho
      | some (sc, some d) =>
        simp only
        split
        · exact hrep sc (some d) rfl
        · rw [hscript]; exact ho
  refine ⟨fun steps => build_fallback_ne_nil steps,
    fun l s => ⟨houtline l s, fun h => by unfold draft_script_outline; rw [h]; rfl⟩, ?_⟩
  intro llmScript steps initRes llm exec dOpt
  constructor
  · exact hfinal _ initRes none (houtline llmScript steps) (by intro sc d h; cases h)
  · refine hfinal _ initRes _ (houtline llmScript steps) ?_
    intro sc d h
    cases h
    exact repair_and_rerun_script_ne_nil llm exec _ 2 (houtline llmScript steps)

/-- C5 witness: with no steps at all and an empty LLM script, the pipeline
still returns the non-empty placeholder fallback. -/
theorem C5_fallback_nonempty_witness :
    build_fallback_script_from_steps .noneI ≠ [] ∧
    (draft_script_outline [] .noneI ≠ [] ∧
      ([] : Str) = [] → draft_script_outline [] .noneI =
        build_fallback_script_from_steps .noneI) ∧
    (generate_draft_observable (draft_script_outline []
      (.listI [.dict [] [], .dict (str "  ") []])) (.error (str "timeout")) none).script ≠ [] :=
  ⟨C5_fallback_nonempty.1 .noneI,
   fun _ => (C5_fallback_nonempty.2.1 [] .noneI).2 rfl,
   (C5_fallback_nonempty.2.2 [] (.listI [.dict [] [], .dict (str "  ") []])
     (.error (str "timeout")) (fun _ => .error ()) (fun _ => .error []) none).1⟩

-- C9 -------------------------------------------------------------------------

/-- C9: a page belongs to the Compressor's relevant set exactly when the
lower-cased hint is empty or contains one of the page's derived keywords,
or — the fallback — the non-empty hint matches no page at all, in which
case every page of the graph is kept. -/
theorem C9_page_inclusion (pages : List (Str × PageInfo)) (steps_text : Str)
    (r : Str) (info : PageInfo) :
    (r, info) ∈ relevantPages pages steps_text ↔
      ((r, info) ∈ pages ∧
        ((lowerStr steps_text).isEmpty = true ∨
          (pageKeywords r).any (fun kw => strContains (lowerStr steps_text) kw) = true ∨
          ∀ pr ∈ pages, pageIncluded (lowerStr steps_text) pr.1 = false)) := by
  have hrel : relevantPages pages steps_text =
      (if (pages.filter (fun pr => pageIncluded (lowerStr steps_text) pr.1)).isEmpty
       then pages else pages.filter (fun pr => pageIncluded (lowerStr steps_text) pr.1)) := rfl
  rw [hrel]
  by_cases hsel : pages.filter (fun pr => pageIncluded (lowerStr steps_text) pr.1) = []
  · rw [hsel]
    simp only [List.isEmpty_nil, if_true]
    constructor
    · intro hmem
      refine ⟨hmem, Or.inr (Or.inr ?_)⟩
      intro pr hpr
      have := List.filter_eq_nil_iff.mp hsel pr hpr
      simpa using this
    · exact fun h => h.1
  · have hne : ((pages.filter (fun pr => pageIncluded (lowerStr steps_text) pr.1)).isEmpty) = false :=
      List.isEmpty_eq_false.mpr hsel
    rw [hne]
    simp only [Bool.false_eq_true, if_false]
    rw [List.mem_filter]
    constructor
    · rintro ⟨hmem, hinc⟩
      simp only [pageIncluded, Bool.or_eq_true] at hinc
      exact ⟨hmem, hinc.elim Or.inl (fun h => Or.inr (Or.inl h))⟩
    · rintro ⟨hmem, (h | h | h)⟩
      · exact ⟨hmem, by simp [pageIncluded, h]⟩
      · exact ⟨hmem, by simp [pageIncluded, h]⟩
      · exact absurd (List.filter_eq_nil_iff.mpr
          (fun pr hpr => by simp [h pr hpr])) hsel

-- C6 -------------------------------------------------------------------------

/-- The event trace of `n` consecutive failing attempts starting at
`start`: each is a call with timeout `base × attempt` followed by a sleep
of `min 5 attempt` seconds. -/
def failTrace (b : Nat) : Nat → Nat → List RetryEv
  | _, 0 => []
  | start, n + 1 =>
    .call start (b * start) :: .sleep (min 5 start) :: failTrace b (start + 1) n

theorem execRetriesGo_success (post : Nat → Nat → Except Str ExecData) (b : Nat) :
    ∀ (k attempt i : Nat) (d : ExecData), attempt ≤ i → i < attempt + k →
      (∀ j, attempt ≤ j → j < i → ∃ e, post j (b * j) = .error e) →
      post i (b * i) = .ok d →
      execRetriesGo post b k attempt =
        (.ok d, failTrace b attempt (i - attempt) ++ [.call i (b * i)]) := by
  intro k
  induction k with
  | zero => intro attempt i d h1 h2 _ _; omega
  | succ k ih =>
    intro attempt i d h1 h2 hfail hok
    by_cases heq : i = attempt
    · subst heq
      simp only [execRetriesGo, hok]
      simp [failTrace]
    · have hlt : attempt < i := by omega
      rcases hfail attempt (le_refl _) hlt with ⟨e, he⟩
      simp only [execRetriesGo, he]
      have hk : ¬k = 0 := by omega
      simp only [hk, if_false]
      have hih := ih (attempt + 1) i d (by omega) (by omega)
        (fun j hj1 hj2 => hfail j (by omega) hj2) hok
      rw [hih]
      have harith : i - attempt = (i - (attempt + 1)) + 1 := by omega
      rw [harith]
      simp [failTrace]

theorem execRetriesGo_step (post : Nat → Nat → Except Str ExecData) (b k attempt : Nat) :
    execRetriesGo post b (k + 1) attempt =
      (match post attempt (b * attempt) with
       | .ok d => (.ok d, [.call attempt (b * attempt)])
       | .error e =>
         if k = 0 then (.error e, [.call attempt (b * attempt)])
         else
           let r := execRetriesGo post b k (attempt + 1)
           (r.1, .call attempt (b * attempt) :: .sleep (min 5 attempt) :: r.2)) := rfl

theorem execRetriesGo_allFail (post : Nat → Nat → Except Str ExecData) (b : Nat) :
    ∀ (k attempt : Nat) (em : Str),
      (∀ j, attempt ≤ j → j < attempt + k → ∃ e, post j (b * j) = .error e) →
      post (attempt + k) (b * (attempt + k)) = .error em →
      execRetriesGo post b (k + 1) attempt =
        (.error em, failTrace b attempt k ++ [.call (attempt + k) (b * (attempt + k))]) := by
  intro k
  induction k with
  | zero =>
    intro attempt em _ hm
    simp only [Nat.add_zero] at hm
    simp [execRetriesGo, hm, failTrace]
  | succ k ih =>
    intro attempt em hfail hm
    rcases hfail attempt (le_refl _) (by omega) with ⟨e, he⟩
    rw [execRetriesGo_step, he]
    have hk : ¬(k + 1) = 0 := by omega
    simp only [hk, if_false]
    have hih := ih (attempt + 1) em
      (fun j hj1 hj2 => hfail j (by omega) (by omega))
      (by rw [show attempt + 1 + k = attempt + (k + 1) by omega]; exact hm)
    rw [hih]
    have harith : attempt + 1 + k = attempt + (k + 1) := by omega
    rw [harith]
    simp [failTrace]

/-- C6: attempt `i` posts with timeout `base × i`; an exception before the
last attempt is swallowed and followed by a `min 5 i` second sleep and a
retry; the first success returns its parsed response at once, with no
further calls; and in the all-fail case the exception of the final attempt
(and only it) propagates. -/
theorem C6_retry_schedule (post : Nat → Nat → Except Str ExecData) (m b : Nat) :
    (∀ (i : Nat) (d : ExecData), 1 ≤ i → i ≤ m →
      (∀ j, 1 ≤ j → j < i → ∃ e, post j (b * j) = .error e) →
      post i (b * i) = .ok d →
      execute_script_with_retries post m b =
        (.ok d, failTrace b 1 (i - 1) ++ [.call i (b * i)])) ∧
    (∀ em : Str, 1 ≤ m →
      (∀ j, 1 ≤ j → j < m → ∃ e, post j (b * j) = .error e) →
      post m (b * m) = .error em →
      execute_script_with_retries post m b =
        (.error em, failTrace b 1 (m - 1) ++ [.call m (b * m)])) := by
  constructor
  · intro i d h1 h2 hfail hok
    unfold execute_script_with_retries
    exact execRetriesGo_success post b m 1 i d h1 (by omega) hfail hok
  · intro em hm hfail hmerr
    unfold execute_script_with_retries
    have hm1 : m = (m - 1) + 1 := by omega
    have hgoal : execRetriesGo post b ((m - 1) + 1) 1 =
        (.error em, failTrace b 1 (m - 1) ++ [.call m (b * m)]) := by
      have h2 := execRetriesGo_allFail post b (m - 1) 1 em
        (fun j hj1 hj2 => hfail j hj1 (by omega))
        (by rw [show 1 + (m - 1) = m by omega]; exact hmerr)
      rw [h2, show 1 + (m - 1) = m by omega]
    rw [← hm1] at hgoal
    exact hgoal

/-- C6 witness: base timeout 15, three attempts, attempt 1 fails and the
loop sleeps one second, attempt 2 succeeds with timeout 30. -/
theorem C6_retry_schedule_witness :
    execute_script_with_retries
      (fun j _ => if j = 1 then .error (str "boom") else .ok ⟨true, [], [], [], true⟩) 3 15 =
      (.ok ⟨true, [], [], [], true⟩,
        [.call 1 15, .sleep 1, .call 2 30]) := by
  have h := (C6_retry_schedule
    (fun j _ => if j = 1 then .error (str "boom") else .ok ⟨true, [], [], [], true⟩) 3 15).1
    2 ⟨true, [], [], [], true⟩ (by decide) (by decide)
    (fun j hj1 hj2 => ⟨str "boom", by
      have : j = 1 := by omega
      rw [this]; rfl⟩)
    rfl
  rw [h]
  rfl

-- C3 -------------------------------------------------------------------------

/-- The candidate script a repair attempt would execute: the LLM response
normalised by the fence stripper and the unwrapper; `none` when the LLM
call raises or the candidate is empty. -/
def repairCandidate (llm : LlmOracle) (i : Nat) : Option Str :=
  match llm i with
  | .error _ => none
  | .ok text =>
    let c := unwrap_playwright_script_to_page_only (strip_markdown_code_fences (pyStrip text))
    if c.isEmpty then none else some c

/-- Attempt `i` produces an executed candidate whose effective result (raw
success corrected by the Hidden-Error Detector) is success. -/
def attemptSucceeds (llm : LlmOracle) (exec : ExecOracle) (i : Nat) : Prop :=
  ∃ c d, repairCandidate llm i = some c ∧ exec i = .ok d ∧ repairEffSuccess d = true

theorem repairLoopGo_bounds (llm : LlmOracle) (exec : ExecOracle) (maxR : Nat) :
    ∀ (k attempt : Nat) (cur : Str) (last : Option ExecData), attempt + k = maxR + 1 →
      (repairLoopGo llm exec maxR k attempt cur last).attempts ≤ maxR ∧
      (repairLoopGo llm exec maxR k attempt cur last).executed.length ≤ k := by
  intro k
  induction k with
  | zero => intro attempt cur last h; simp [repairLoopGo]
  | succ k ih =>
    intro attempt cur last h
    simp only [repairLoopGo]
    split
    · simp
    · next text heq0 =>
      split
      · have := ih (attempt + 1) cur last (by omega)
        exact ⟨this.1, by omega⟩
      · next hcand =>
        split
        · next e heq =>
          have hih := ih (attempt + 1) cur (some ⟨false, [], [], e, false⟩) (by omega)
          refine ⟨hih.1, ?_⟩
          show (attempt :: (repairLoopGo llm exec maxR k (attempt + 1) cur
            (some ⟨false, [], [], e, false⟩)).executed).length ≤ k + 1
          simp only [List.length_cons]
          omega
        · next d heq =>
          split
          · refine ⟨by show attempt ≤ maxR; omega, ?_⟩
            show ([attempt] : List Nat).length ≤ k + 1
            simp
          · have hih := ih (attempt + 1)
              (unwrap_playwright_script_to_page_only (strip_markdown_code_fences (pyStrip text)))
              (some d) (by omega)
            refine ⟨hih.1, ?_⟩
            show (attempt :: (repairLoopGo llm exec maxR k (attempt + 1)
              (unwrap_playwright_script_to_page_only (strip_markdown_code_fences (pyStrip text)))
              (some d)).executed).length ≤ k + 1
            simp only [List.length_cons]
            omega

theorem repairLoopGo_first_success (llm : LlmOracle) (exec : ExecOracle) (maxR : Nat) :
    ∀ (k attempt : Nat) (cur : Str) (last : Option ExecData) (i : Nat) (c : Str) (d : ExecData),
      attempt + k = maxR + 1 → attempt ≤ i → i ≤ maxR →
      (∀ j, attempt ≤ j → j < i → (∃ t, llm j = .ok t) ∧ ¬attemptSucceeds llm exec j) →
      repairCandidate llm i = some c → exec i = .ok d → repairEffSuccess d = true →
      (repairLoopGo llm exec maxR k attempt cur last).script = c ∧
      (repairLoopGo llm exec maxR k attempt cur last).lastExec = some d ∧
      (repairLoopGo llm exec maxR k attempt cur last).attempts = i := by
  intro k
  induction k with
  | zero => intro attempt cur last i c d h1 h2 h3 _ _ _ _; omega
  | succ k ih =>
    intro attempt cur last i c d h1 h2 h3 hprev hcand hexec heff
    by_cases heq : attempt = i
    · subst heq
      unfold repairCandidate at hcand
      simp only [repairLoopGo]
      cases hllm : llm attempt with
      | error u => rw [hllm] at hcand; cases hcand
      | ok text =>
        rw [hllm] at hcand
        simp only at hcand
        split at hcand
        · cases hcand
        · next hne =>
          cases hcand
          simp only [hne, if_false, hexec, heff, if_true]
          exact ⟨rfl, rfl, rfl⟩
    · have hlt : attempt < i := by omega
      have hat := hprev attempt (le_refl _) hlt
      rcases hat.1 with ⟨t, ht⟩
      simp only [repairLoopGo, ht]
      have hihargs : ∀ cur' last',
          (repairLoopGo llm exec maxR k (attempt + 1) cur' last').script = c ∧
          (repairLoopGo llm exec maxR k (attempt + 1) cur' last').lastExec = some d ∧
          (repairLoopGo llm exec maxR k (attempt + 1) cur' last').attempts = i :=
        fun cur' last' => ih (attempt + 1) cur' last' i c d (by omega) (by omega) h3
          (fun j hj1 hj2 => hprev j (by omega) hj2) hcand hexec heff
      split
      · exact hihargs cur last
      · next hne =>
        cases hex : exec attempt with
        | error e => simpa using hihargs cur (some ⟨false, [], [], e, false⟩)
        | ok d' =>
          have hnotsucc : repairEffSuccess d' = false := by
            by_contra hcon
            rw [Bool.not_eq_false] at hcon
            refine hat.2 ⟨unwrap_playwright_script_to_page_only
              (strip_markdown_code_fences (pyStrip t)), d', ?_, hex, hcon⟩
            unfold repairCandidate
            rw [ht]
            simp [hne]
          simp only [hnotsucc, Bool.false_eq_true, if_false]
          simpa using hihargs _ (some d')

/-- C3: the repair controller executes at most `max_retries` candidates,
reports at most `max_retries` attempts (so at most `max_retries + 1` total
executions counting the initial one), and returns at the first attempt
whose effective result is success, with that attempt's script, execution
data and attempt number. -/
theorem C3_repair_budget :
    (∀ (llm : LlmOracle) (exec : ExecOracle) (m : Nat) (orig : Str),
      (repair_and_rerun llm exec orig m).attempts ≤ m ∧
      (repair_and_rerun llm exec orig m).executed.length ≤ m ∧
      (repair_and_rerun llm exec orig m).attempts + 1 ≤ m + 1) ∧
    (∀ (llm : LlmOracle) (exec : ExecOracle) (m : Nat) (orig : Str)
        (i : Nat) (c : Str) (d : ExecData), 1 ≤ i → i ≤ m →
      (∀ j, 1 ≤ j → j < i → (∃ t, llm j = .ok t) ∧ ¬attemptSucceeds llm exec j) →
      repairCandidate llm i = some c → exec i = .ok d → repairEffSuccess d = true →
      (repair_and_rerun llm exec orig m).script = c ∧
      (repair_and_rerun llm exec orig m).lastExec = some d ∧
      (repair_and_rerun llm exec orig m).attempts = i) := by
  constructor
  · intro llm exec m orig
    unfold repair_and_rerun
    have := repairLoopGo_bounds llm exec m m 1 orig none (by omega)
    exact ⟨this.1, this.2, by omega⟩
  · intro llm exec m orig i c d h1 h2 hprev hcand hexec heff
    exact repairLoopGo_first_success llm exec m m 1 orig none i c d (by omega) h1 h2
      hprev hcand hexec heff

/-- C3 witness: with a well-behaved LLM and executor the controller stops
at attempt 1 within a budget of 2. -/
theorem C3_repair_budget_witness :
    ((repair_and_rerun (fun _ => .ok (str "await page.x();"))
        (fun _ => .ok ⟨true, [], [], [], true⟩) (str "orig") 2).attempts ≤ 2) ∧
    (repair_and_rerun (fun _ => .ok (str "await page.x();"))
        (fun _ => .ok ⟨true, [], [], [], true⟩) (str "orig") 2).script =
      str "await page.x();" ∧
    (repair_and_rerun (fun _ => .ok (str "await page.x();"))
        (fun _ => .ok ⟨true, [], [], [], true⟩) (str "orig") 2).attempts = 1 :=
  ⟨(C3_repair_budget.1 (fun _ => .ok (str "await page.x();"))
      (fun _ => .ok ⟨true, [], [], [], true⟩) 2 (str "orig")).1,
   (C3_repair_budget.2 (fun _ => .ok (str "await page.x();"))
      (fun _ => .ok ⟨true, [], [], [], true⟩) 2 (str "orig") 1 (str "await page.x();")
      ⟨true, [], [], [], true⟩ (by decide) (by decide)
      (fun j hj1 hj2 => absurd (Nat.lt_of_le_of_lt hj1 hj2) (by decide))
      (by decide) rfl (by decide)).1,
   (C3_repair_budget.2 (fun _ => .ok (str "await page.x();"))
      (fun _ => .ok ⟨true, [], [], [], true⟩) 2 (str "orig") 1 (str "await page.x();")
      ⟨true, [], [], [], true⟩ (by decide) (by decide)
      (fun j hj1 hj2 => absurd (Nat.lt_of_le_of_lt hj1 hj2) (by decide))
      (by decide) rfl (by decide)).2.2⟩

-- C8 -------------------------------------------------------------------------

/-- The action-log line of the round-trip claim. -/
def c8_line : Str := str "Action: fill(input[name=\"u\"], test,user) - ok"

def c8_args : Str := str "input[name=\"u\"], test,user"

/-- C8 counterexample: the argument text of
`Action: fill(input[name="u"], test,user) - ok` splits into three
arguments, not two — the comma of `test,user` lies outside any quotes, so
the splitter treats it as a separator. -/
theorem C8_counterexample :
    action_line_match (pyStrip c8_line) = some (str "fill", c8_args) ∧
    split_args (pyStrip c8_args) = [str "input[name=\"u\"]", str "test", str "user"] ∧
    (split_args (pyStrip c8_args)).length ≠ 2 := by
  refine ⟨by decide, by decide, by decide⟩

/-- C8 (amended): the line parses with name `fill` and that argument text;
the splitter yields exactly three arguments (the quoted selector is kept
whole, the unquoted comma separates `test` from `user`); and the compiled
script uses only the first two arguments. -/
theorem C8_action_log_split :
    action_line_match (pyStrip c8_line) = some (str "fill", c8_args) ∧
    split_args (pyStrip c8_args) = [str "input[name=\"u\"]", str "test", str "user"] ∧
    build_script_from_actions_log c8_line =
      str "await page.fill(" ++ (squote :: str "input[name=\"u\"]" ++ [squote]) ++
        str ", " ++ (squote :: str "test" ++ [squote]) ++ str ");" := by
  refine ⟨by decide, by decide, by decide⟩

-- C2 -------------------------------------------------------------------------

theorem prefix_head?_eq {r z : Str} (h : r <+: z) {c : Char} (hc : r.head? = some c) :
    z.head? = some c := by
  rcases h with ⟨t, ht⟩
  cases r with
  | nil => simp at hc
  | cons a as =>
    cases hc
    rw [← ht]
    rfl

theorem stripRightWhile_prefixOf (p : Char → Bool) (z : Str) : stripRightWhile p z <+: z := by
  unfold stripRightWhile
  rcases @List.dropWhile_suffix _ z.reverse p with ⟨t, ht⟩
  refine ⟨t.reverse, ?_⟩
  have := congrArg List.reverse ht
  simpa [List.reverse_append] using this

theorem pyStrip_head_not_space (s : Str) {c : Char}
    (hc : (pyStrip s).head? = some c) : pySpace c = false := by
  unfold pyStrip stripWhile at hc
  have hpre := stripRightWhile_prefixOf pySpace (stripLeftWhile pySpace s)
  have hz := prefix_head?_eq hpre hc
  unfold stripLeftWhile at hz
  have := List.head?_dropWhile_not pySpace s
  rw [hz] at this
  exact this

theorem pyStrip_last_not_space (s : Str) {c : Char}
    (hc : (pyStrip s).getLast? = some c) : pySpace c = false := by
  unfold pyStrip stripWhile stripRightWhile at hc
  rw [← List.head?_reverse] at hc
  rw [List.reverse_reverse] at hc
  have := List.head?_dropWhile_not pySpace (stripLeftWhile pySpace s).reverse
  rw [hc] at this
  exact this

theorem pyStrip_idem (s : Str) : pyStrip (pyStrip s) = pyStrip s :=
  pyStrip_of_ends (pyStrip s) (fun _ h => pyStrip_head_not_space s h)
    (fun _ h => pyStrip_last_not_space s h)

theorem strip_markdown_code_fences_pyStrip (s : Str) :
    strip_markdown_code_fences (pyStrip s) = strip_markdown_code_fences s := by
  unfold strip_markdown_code_fences
  rw [pyStrip_idem]

-- suffix/infix structure of the pattern engine's remainders

theorem dropCI_suffix {p cs r : Str} (h : dropCI p cs = some r) : r <:+ cs := by
  induction p generalizing cs with
  | nil => simp [dropCI] at h; simp [h]
  | cons x xs ih =>
    cases cs with
    | nil => simp [dropCI] at h
    | cons c cs' =>
      simp only [dropCI] at h
      split at h
      · exact (ih h).trans (List.suffix_cons c cs')
      · exact absurd h (by simp)

theorem munch_suffix (f : Char → Bool) (cs : Str) : (munch f cs).2 <:+ cs := by
  induction cs with
  | nil => simp [munch]
  | cons c cs' ih =>
    simp only [munch]
    split
    · exact ih.trans (List.suffix_cons c cs')
    · exact List.suffix_refl _

theorem scanThruGap_suffix {s cs r : Str} (h : scanThruGap s cs = some r) : r <:+ cs := by
  induction cs with
  | nil => simp only [scanThruGap] at h; exact dropCI_suffix h
  | cons c cs' ih =>
    simp only [scanThruGap] at h
    split at h
    · next heq => cases h; exact dropCI_suffix heq
    · split at h
      · exact absurd h (by simp)
      · exact (ih h).trans (List.suffix_cons c cs')

theorem matchToks_suffix {ts : List RTok} {cs r : Str} (h : matchToks ts cs = some r) :
    r <:+ cs := by
  induction ts generalizing cs with
  | nil => simp [matchToks] at h; simp [h]
  | cons t ts ih =>
    cases t with
    | lit s =>
      simp only [matchToks, Option.bind_eq_some] at h
      rcases h with ⟨r1, hr1, hr⟩
      exact (ih hr).trans (dropCI_suffix hr1)
    | ws1 =>
      simp only [matchToks] at h
      split at h
      · exact absurd h (by simp)
      · exact (ih h).trans (munch_suffix pySpace cs)
    | ws0 =>
      simp only [matchToks] at h
      exact (ih h).trans (munch_suffix pySpace cs)
    | optLit s =>
      simp only [matchToks] at h
      split at h
      · next heq => exact (ih h).trans (dropCI_suffix heq)
      · exact ih h
    | cls set =>
      simp only [matchToks] at h
      split at h
      · exact absurd h (by simp)
      · next c r' heq =>
        split at h
        · exact (ih h).trans (List.suffix_cons _ _)
        · exact absurd h (by simp)
    | digits1 =>
      simp only [matchToks] at h
      split at h
      · exact absurd h (by simp)
      · exact (ih h).trans (munch_suffix Char.isDigit cs)
    | lazyThru s =>
      simp only [matchToks, Option.bind_eq_some] at h
      rcases h with ⟨r1, hr1, hr⟩
      exact (ih hr).trans (scanThruGap_suffix hr1)

theorem tryWrappedAt_infixOf {pre tail : List RTok} {s g : Str}
    (h : tryWrappedAt pre tail s = some g) : g <:+: s := by
  unfold tryWrappedAt at h
  rcases Option.bind_eq_some.mp h with ⟨rem, hrem, hg⟩
  rcases Option.map_eq_some'.mp hg with ⟨pr, _, hgr⟩
  subst hgr
  exact (List.take_prefix pr.1 rem).isInfix.trans (matchToks_suffix hrem).isInfix

theorem searchWrapped_infixOf {pre tail : List RTok} {s g : Str}
    (h : searchWrapped pre tail s = some g) : g <:+: s := by
  induction s with
  | nil => simp only [searchWrapped] at h; exact tryWrappedAt_infixOf h
  | cons c cs ih =>
    simp only [searchWrapped] at h
    split at h
    · next heq => cases h; exact tryWrappedAt_infixOf heq
    · exact (ih h).trans (List.suffix_cons c cs).isInfix

theorem arrowConstSkip_suffix (s0 : Str) : arrowConstSkip s0 <:+ s0 := by
  unfold arrowConstSkip
  split
  · next r heq =>
    split
    · exact List.suffix_refl _
    · split
      · next r2 heq2 =>
        exact (matchToks_suffix heq2).trans
          ((munch_suffix isWordChar r).trans (matchToks_suffix heq))
      · exact List.suffix_refl _
  · exact List.suffix_refl _

theorem matchArrowDecl_infixOf {t g : Str} (h : matchArrowDecl t = some g) : g <:+: t := by
  unfold matchArrowDecl at h
  split at h
  · exact absurd h (by simp)
  · next rem hrem =>
    split at h
    · next j hj =>
      cases h
      have hs1 : rem <:+ t :=
        (matchToks_suffix hrem).trans
          ((arrowConstSkip_suffix _).trans (munch_suffix pySpace t))
      exact (List.take_prefix j rem).isInfix.trans hs1.isInfix
    · exact absurd h (by simp)

theorem matchAsyncFnDecl_infixOf {t g : Str} (h : matchAsyncFnDecl t = some g) : g <:+: t := by
  unfold matchAsyncFnDecl at h
  split at h
  · exact absurd h (by simp)
  · next rem hrem =>
    split at h
    · next j hj =>
      cases h
      exact (List.take_prefix j rem).isInfix.trans
        ((matchToks_suffix hrem).trans (munch_suffix pySpace t)).isInfix
    · exact absurd h (by simp)

theorem unwrap_once_infixOf {t t2 : Str} (h : unwrap_once t = some t2) : t2 <:+: t := by
  unfold unwrap_once at h
  split at h
  · next heq => cases h; exact (pyStrip_infixOf _).trans (searchWrapped_infixOf heq)
  · split at h
    · next heq => cases h; exact (pyStrip_infixOf _).trans (searchWrapped_infixOf heq)
    · split at h
      · next heq => cases h; exact (pyStrip_infixOf _).trans (matchArrowDecl_infixOf heq)
      · split at h
        · next heq => cases h; exact (pyStrip_infixOf _).trans (matchAsyncFnDecl_infixOf heq)
        · exact absurd h (by simp)

theorem unwrap_loop_infixOf : ∀ (k : Nat) (t : Str), unwrap_loop k t <:+: t := by
  intro k
  induction k with
  | zero => intro t; exact List.infix_refl _
  | succ k ih =>
    intro t
    simp only [unwrap_loop]
    split
    · next heq => exact (ih _).trans (unwrap_once_infixOf heq)
    · exact List.infix_refl _

theorem splitLines_ne_nil (s : Str) : splitLines s ≠ [] := by
  cases s with
  | nil => simp [splitLines]
  | cons c rest =>
    simp only [splitLines]
    split
    · simp
    · split <;> simp_all

theorem joinLines_splitLines (s : Str) : joinLines (splitLines s) = s := by
  induction s with
  | nil => rfl
  | cons c rest ih =>
    simp only [splitLines]
    split
    · next hc =>
      subst hc
      cases hr : splitLines rest with
      | nil => exact absurd hr (splitLines_ne_nil rest)
      | cons l ls =>
        rw [hr] at ih
        cases ls with
        | nil => simp only [joinLines]; rw [← ih]; rfl
        | cons l2 ls2 => simp only [joinLines]; rw [← ih]; rfl
    · cases hr : splitLines rest with
      | nil => exact absurd hr (splitLines_ne_nil rest)
      | cons l ls =>
        rw [hr] at ih
        cases ls with
        | nil =>
          simp only [joinLines]
          simp only [joinLines] at ih
          rw [ih]
        | cons l2 ls2 =>
          simp only [joinLines]
          simp only [joinLines] at ih
          rw [List.cons_append, ih]

theorem joinLines_tail_suffix (a : Str) (rest : List Str) :
    joinLines rest <:+ joinLines (a :: rest) := by
  cases rest with
  | nil => exact List.nil_suffix
  | cons r rs =>
    show joinLines (r :: rs) <:+ a ++ '\n' :: joinLines (r :: rs)
    exact (List.suffix_cons '\n' _).trans (List.suffix_append a _)

theorem joinLines_dropLast_prefixOf : ∀ l : List Str, joinLines l.dropLast <+: joinLines l := by
  intro l
  induction l with
  | nil => exact List.prefix_refl _
  | cons x rest ih =>
    cases rest with
    | nil => exact List.nil_prefix
    | cons y ys =>
      show joinLines (x :: (y :: ys).dropLast) <+: joinLines (x :: y :: ys)
      cases hdl : (y :: ys).dropLast with
      | nil =>
        show joinLines [x] <+: x ++ '\n' :: joinLines (y :: ys)
        exact ⟨'\n' :: joinLines (y :: ys), rfl⟩
      | cons d ds =>
        rw [hdl] at ih
        show x ++ '\n' :: joinLines (d :: ds) <+: x ++ '\n' :: joinLines (y :: ys)
        rcases ih with ⟨t, ht⟩
        exact ⟨t, by rw [← ht]; simp⟩

theorem strip_markdown_code_fences_infixOf (s : Str) :
    strip_markdown_code_fences s <:+: s := by
  simp only [strip_markdown_code_fences]
  split
  · cases hsl : splitLines (pyStrip s) with
    | nil => exact absurd hsl (splitLines_ne_nil _)
    | cons a rest =>
      have hjoin : joinLines rest <:+ pyStrip s := by
        have h1 := joinLines_tail_suffix a rest
        rw [← hsl, joinLines_splitLines] at h1
        exact h1
      have hlines2 : ∀ lines2 : List Str,
          (lines2 = rest ∨ lines2 = rest.dropLast) →
          pyStrip (joinLines lines2) <:+: s := by
        rintro lines2 (h | h) <;> subst h
        · exact ((pyStrip_infixOf _).trans hjoin.isInfix).trans (pyStrip_infixOf s)
        · exact ((pyStrip_infixOf _).trans
            ((joinLines_dropLast_prefixOf rest).isInfix.trans hjoin.isInfix)).trans
            (pyStrip_infixOf s)
      simp only [List.drop_one, List.tail_cons]
      split
      · split
        · exact hlines2 _ (Or.inr rfl)
        · exact hlines2 _ (Or.inl rfl)
      · exact hlines2 _ (Or.inl rfl)
  · exact pyStrip_infixOf s

def fence : Str := str "```"

def btick : Char := Char.ofNat 96

theorem fence_eq : fence = [btick, btick, btick] := by decide

theorem strContains_append_no_btick {p a : Str}
    (hp : ∀ c ∈ p, (c == btick) = false) :
    strContains (p ++ a) fence = strContains a fence := by
  induction p with
  | nil => rfl
  | cons c rest ih =>
    have hc := hp c (by simp)
    simp only [List.cons_append, strContains, List.append_eq]
    rw [ih (fun x hx => hp x (by simp [hx]))]
    have hpre : fence.isPrefixOf (c :: (rest ++ a)) = false := by
      rw [fence_eq]
      show (btick :: btick :: [btick]).isPrefixOf (c :: (rest ++ a)) = false
      simp only [List.isPrefixOf]
      have : (btick == c) = false := by
        rw [beq_eq_false_iff_ne] at hc ⊢
        exact fun h => hc h.symm
      simp [this]
    rw [hpre]
    simp

-- the representative wrapper shapes and bodies

def c2_body : Str := str "await page.goto(url);"

def c2_wrapArrow (b : Str) : Str :=
  str "async (page) => " ++ lbrace :: ' ' :: b ++ ' ' :: [rbrace]

def c2_wrapIife : Str := '(' :: c2_wrapArrow c2_body ++ str ")(page)"

def c2_wrapFn : Str :=
  str "(async function(page, context, browser) " ++ lbrace :: ' ' :: c2_body ++
    ' ' :: rbrace :: str ")(page, context, browser)"

def c2_wrapFnDecl : Str :=
  str "async function(page) " ++ lbrace :: ' ' :: c2_body ++ ' ' :: [rbrace]

/-- C2 (amended): when the fence-stripped input contains no fence marker,
the Normalizer's output contains none either; and each single known
wrapper shape around a bare body is removed (representative shapes).  Mid-
text fences and wrappers nested beyond the loop's three passes can
survive — see the counterexample. -/
theorem C2_normalizer_no_fences :
    (∀ s : Str, strContains (strip_markdown_code_fences s) fence = false →
      strContains (unwrap_playwright_script_to_page_only s) fence = false) ∧
    unwrap_playwright_script_to_page_only (c2_wrapArrow c2_body) = c2_body ∧
    unwrap_playwright_script_to_page_only c2_wrapIife = c2_body ∧
    unwrap_playwright_script_to_page_only c2_wrapFn = c2_body ∧
    unwrap_playwright_script_to_page_only c2_wrapFnDecl = c2_body := by
  refine ⟨?_, by decide, by decide, by decide, by decide⟩
  intro s hsf
  have noF : ∀ {inner outer : Str}, inner <:+: outer →
      strContains outer fence = false → strContains inner fence = false := by
    intro inner outer hsub h
    by_contra hcon
    rw [← Bool.not_eq_true] at hcon
    push_neg at hcon
    rw [strContains_mono hsub hcon] at h
    cases h
  simp only [unwrap_playwright_script_to_page_only]
  split
  · decide
  · have h1 : strContains (strip_markdown_code_fences (pyStrip s)) fence = false := by
      rw [strip_markdown_code_fences_pyStrip]
      exact hsf
    have h2 : strContains (pyStrip (strip_markdown_code_fences (pyStrip s))) fence = false :=
      noF (pyStrip_infixOf _) h1
    have h3 : strContains (unwrap_loop 3 (pyStrip (strip_markdown_code_fences (pyStrip s))))
        fence = false :=
      noF (unwrap_loop_infixOf 3 _) h2
    split
    · refine noF (pyStrip_infixOf _) ?_
      rw [strContains_append_no_btick (by decide)]
      exact h3
    · exact noF (pyStrip_infixOf _) h3

/-- C2 counterexample: a fence marker that does not open the text survives
the Normalizer verbatim, and four nested arrow wrappers exhaust the three
unwrap passes, leaving an output that still matches the non-invoked arrow
wrapper shape. -/
theorem C2_counterexample :
    strContains (unwrap_playwright_script_to_page_only (str "x ```")) fence = true ∧
    (matchArrowDecl (unwrap_playwright_script_to_page_only
      (c2_wrapArrow (c2_wrapArrow (c2_wrapArrow (c2_wrapArrow c2_body)))))).isSome = true := by
  refine ⟨by decide, by decide⟩

/-- C2 witness: a fenced, wrapped script normalises to bare statements with
no fence marker. -/
theorem C2_normalizer_no_fences_witness :
    strContains (strip_markdown_code_fences c2_wrapIife) fence = false ∧
    strContains (unwrap_playwright_script_to_page_only c2_wrapIife) fence = false :=
  ⟨by decide, C2_normalizer_no_fences.1 c2_wrapIife (by decide)⟩

-- URL rewrite structure (C7 / C10) ------------------------------------------

/-- A character the URL pipeline leaves alone: not Python whitespace and
not a C0 control (so in particular not space, tab, CR or LF). -/
def cleanChar (c : Char) : Bool := !pySpace c && decide (32 < c.toNat)

/-- Whitespace/control-free text. -/
def noWsCtl (s : Str) : Bool := s.all cleanChar

theorem noWsCtl_mem {s : Str} (h : noWsCtl s = true) {c : Char} (hc : c ∈ s) :
    cleanChar c = true := by
  simp only [noWsCtl, List.all_eq_true] at h
  exact h c hc

theorem noWsCtl_of_mem {s : Str} (h : ∀ c ∈ s, cleanChar c = true) :
    noWsCtl s = true := by
  simp only [noWsCtl, List.all_eq_true]
  exact h

theorem cleanChar_spec {c : Char} (h : cleanChar c = true) :
    pySpace c = false ∧ 32 < c.toNat := by
  simp only [cleanChar, Bool.and_eq_true, Bool.not_eq_true', decide_eq_true_eq] at h
  exact h

theorem cleanChar_not_c0 {c : Char} (h : cleanChar c = true) :
    isC0OrSpace c = false := by
  have h2 := (cleanChar_spec h).2
  simp only [isC0OrSpace, decide_eq_false_iff_not]
  omega

theorem cleanChar_not_tabcrlf {c : Char} (h : cleanChar c = true) :
    isTabCRLF c = false := by
  have h2 := (cleanChar_spec h).2
  simp only [isTabCRLF, Bool.or_eq_false_iff, beq_eq_false_iff_ne, ne_eq]
  refine ⟨⟨?_, ?_⟩, ?_⟩ <;> (intro hc; subst hc; exact absurd h2 (by decide))

theorem dropWhile_eq_self_of_head {p : Char → Bool} {s : Str}
    (h : ∀ c, s.head? = some c → p c = false) : s.dropWhile p = s := by
  cases s with
  | nil => rfl
  | cons a as => simp [List.dropWhile_cons, h a rfl]

theorem takeWhile_eq_nil_of_head {p : Char → Bool} {s : Str}
    (h : ∀ c, s.head? = some c → p c = false) : s.takeWhile p = [] := by
  cases s with
  | nil => rfl
  | cons a as => simp [List.takeWhile_cons, h a rfl]

theorem takeWhile_append_all {p : Char → Bool} {a : Str} (b : Str)
    (h : a.all p = true) : (a ++ b).takeWhile p = a ++ b.takeWhile p := by
  induction a with
  | nil => rfl
  | cons x xs ih =>
    simp only [List.all_cons, Bool.and_eq_true] at h
    simp [List.takeWhile_cons, h.1, ih h.2]

theorem dropWhile_append_all {p : Char → Bool} {a : Str} (b : Str)
    (h : a.all p = true) : (a ++ b).dropWhile p = b.dropWhile p := by
  induction a with
  | nil => rfl
  | cons x xs ih =>
    simp only [List.all_cons, Bool.and_eq_true] at h
    simp [List.dropWhile_cons, h.1, ih h.2]

theorem pyStrip_of_clean {s : Str} (h : noWsCtl s = true) : pyStrip s = s := by
  refine pyStrip_of_ends s ?_ ?_
  · intro c hc
    have : c ∈ s := List.mem_of_mem_head? (by simp [hc])
    exact (cleanChar_spec (noWsCtl_mem h this)).1
  · intro c hc
    have : c ∈ s := List.mem_of_getLast?_eq_some hc
    exact (cleanChar_spec (noWsCtl_mem h this)).1

theorem processUrl_id {s : Str} (h : noWsCtl s = true) : processUrl s = s := by
  unfold processUrl
  rw [dropWhile_eq_self_of_head (fun c hc =>
    cleanChar_not_c0 (noWsCtl_mem h (List.mem_of_mem_head? (by simp [hc]))))]
  rw [List.filter_eq_self.mpr ?_]
  intro c hc
  simp [cleanChar_not_tabcrlf (noWsCtl_mem h hc)]

theorem firstIdxOf_append_not {c : Char} {a : Str} (b : Str)
    (h : ∀ x ∈ a, x ≠ c) : firstIdxOf c (a ++ c :: b) = some a.length := by
  induction a with
  | nil => simp [firstIdxOf]
  | cons x xs ih =>
    simp only [List.forall_mem_cons] at h
    simp [firstIdxOf, h.1, ih h.2]

theorem take_append_len {a : Str} (b : Str) : (a ++ b).take a.length = a := by
  induction a with
  | nil => simp
  | cons x xs ih => simp [ih]

theorem drop_append_len {a b : Str} (n : Nat) :
    (a ++ b).drop (a.length + n) = b.drop n := by
  induction a with
  | nil => simp
  | cons x xs ih =>
    rw [List.cons_append, List.length_cons]
    have h1 : xs.length + 1 + n = xs.length + n + 1 := by omega
    rw [h1, List.drop_succ_cons, ih]

theorem isPrefixOf_append_of_le {p a : Str} (b : Str) (h : p.length ≤ a.length) :
    p.isPrefixOf (a ++ b) = p.isPrefixOf a := by
  induction p generalizing a with
  | nil => simp [List.isPrefixOf]
  | cons x xs ih =>
    cases a with
    | nil => simp at h
    | cons y ys =>
      simp only [List.length_cons, Nat.add_le_add_iff_right] at h
      simp [List.isPrefixOf, ih h]

theorem prefix_trans_append {p a : Str} {b : Str}
    (h : p.isPrefixOf (a ++ b) = true) (hl : a.length ≤ p.length) :
    a.isPrefixOf p = true := by
  induction a generalizing p with
  | nil => simp [List.isPrefixOf]
  | cons x xs ih =>
    cases p with
    | nil => simp at hl
    | cons y ys =>
      simp only [List.cons_append, List.isPrefixOf, Bool.and_eq_true, beq_iff_eq] at h ⊢
      simp only [List.length_cons, Nat.add_le_add_iff_right] at hl
      exact ⟨(h.1).symm, ih h.2 hl⟩

theorem isPrefixOf_self_append (a b : Str) : a.isPrefixOf (a ++ b) = true := by
  induction a with
  | nil => simp [List.isPrefixOf]
  | cons x xs ih => simp [List.isPrefixOf, ih]

theorem munch_all {f : Char → Bool} {s : Str} (h : s.all f = true) :
    munch f s = (s.length, []) := by
  induction s with
  | nil => rfl
  | cons c cs ih =>
    simp only [List.all_cons, Bool.and_eq_true] at h
    simp [munch, h.1, ih h.2]

theorem lastIdxOf_eq_none_of_not_mem {c : Char} {s : Str} (h : c ∉ s) :
    lastIdxOf c s = none := by
  induction s with
  | nil => rfl
  | cons x xs ih =>
    simp only [List.mem_cons, not_or] at h
    simp [lastIdxOf, ih h.2, Ne.symm h.1]

theorem splitScheme_http (t : Str) :
    splitScheme (str "http" ++ ':' :: t) = (str "http", t) := by
  have hfi : firstIdxOf ':' (str "http" ++ ':' :: t) = some (str "http").length :=
    firstIdxOf_append_not t (by decide)
  have htake : (str "http" ++ ':' :: t).take (str "http").length = str "http" :=
    take_append_len _
  have hdrop : (str "http" ++ ':' :: t).drop ((str "http").length + 1) = t :=
    @drop_append_len (str "http") (':' :: t) 1
  unfold splitScheme
  rw [hfi]
  dsimp only
  rw [htake, hdrop]
  rw [if_pos ⟨by decide, rfl, by decide⟩]
  have hl : lowerStr (str "http") = str "http" := by decide
  rw [hl]

theorem splitNetloc_shape {netloc : Str} (tail : Str)
    (hn : netloc.all notNetlocEnd = true)
    (ht : ∀ c, tail.head? = some c → notNetlocEnd c = false) :
    splitNetloc (str "//" ++ netloc ++ tail) = (netloc, tail) := by
  have h2 : (str "//" ++ netloc ++ tail).drop 2 = netloc ++ tail := rfl
  unfold splitNetloc
  rw [h2]
  dsimp only
  rw [takeWhile_append_all tail hn, takeWhile_eq_nil_of_head ht,
    dropWhile_append_all tail hn, dropWhile_eq_self_of_head ht, List.append_nil]

theorem urlsplitE_http {netloc : Str} (tail : Str)
    (hw : noWsCtl (str "http://" ++ netloc ++ tail) = true)
    (hn : netloc.all notNetlocEnd = true)
    (hb1 : netloc.contains '[' = false) (hb2 : netloc.contains ']' = false)
    (ht : ∀ c, tail.head? = some c → notNetlocEnd c = false) :
    urlsplitE (str "http://" ++ netloc ++ tail) =
      some ⟨str "http", netloc,
        (partitionChar '?' (partitionChar '#' tail).1).1,
        (partitionChar '?' (partitionChar '#' tail).1).2,
        (partitionChar '#' tail).2⟩ := by
  have hshape : str "http://" ++ netloc ++ tail
      = str "http" ++ ':' :: (str "//" ++ netloc ++ tail) := rfl
  unfold urlsplitE
  rw [processUrl_id hw, hshape]
  dsimp only
  rw [splitScheme_http]
  dsimp only
  rw [if_pos (by rw [List.append_assoc]; exact isPrefixOf_self_append _ _)]
  rw [splitNetloc_shape tail hn ht]
  dsimp only
  rw [hb1, hb2]
  rfl

theorem take_append_add {a b : Str} (n : Nat) :
    (a ++ b).take (a.length + n) = a ++ b.take n := by
  induction a with
  | nil => simp
  | cons x xs ih =>
    rw [List.cons_append, List.length_cons]
    have h1 : xs.length + 1 + n = xs.length + n + 1 := by omega
    rw [h1, List.take_succ_cons, ih, List.cons_append]

theorem munch_decomp (f : Char → Bool) (cs : Str) :
    cs.take (munch f cs).1 ++ (munch f cs).2 = cs ∧
    (cs.take (munch f cs).1).all f = true ∧
    (cs.take (munch f cs).1).length = (munch f cs).1 := by
  induction cs with
  | nil => simp [munch]
  | cons c cs ih =>
    by_cases h : f c = true
    · simp only [munch, h, if_true]
      refine ⟨?_, ?_, ?_⟩
      · simpa [List.take_succ_cons] using ih.1
      · simpa [List.take_succ_cons, h] using ih.2.1
      · simpa [List.take_succ_cons] using ih.2.2
    · simp [munch, h]

theorem elem_eq_false_of_not_mem {c : Char} {s : Str} (h : c ∉ s) :
    s.contains c = false := by
  induction s with
  | nil => rfl
  | cons x xs ih =>
    simp only [List.mem_cons, not_or] at h
    simp only [List.contains, List.elem_cons]
    cases hbe : c == x with
    | true => exact absurd (by simpa using hbe) h.1
    | false => simpa using ih h.2

theorem char_ne_of_toNat_ne {c d : Char} (h : c.toNat ≠ d.toNat) : c ≠ d :=
  fun he => h (by rw [he])

theorem isDigit_toNat {c : Char} (h : c.isDigit = true) :
    48 ≤ c.toNat ∧ c.toNat ≤ 57 := by
  simp only [Char.isDigit, Bool.and_eq_true, decide_eq_true_eq] at h
  exact h

/-- The facts about a decimal-digit character that the URL lemmas use. -/
theorem digit_char_facts {c : Char} (h : c.isDigit = true) :
    isWordChar c = true ∧ notNetlocEnd c = true ∧ cleanChar c = true ∧
    c ≠ '@' ∧ c ≠ '[' ∧ c ≠ ']' ∧ c ≠ ':' ∧ c ≠ '%' ∧ c ≠ '/' := by
  have hn := isDigit_toNat h
  refine ⟨?_, ?_, ?_, ?_, ?_, ?_, ?_, ?_, ?_⟩
  · simp only [isWordChar, Bool.or_eq_true, Bool.and_eq_true, decide_eq_true_eq, beq_iff_eq]
    omega
  · simp only [notNetlocEnd, Bool.not_eq_true', Bool.or_eq_false_iff, beq_eq_false_iff_ne]
    refine ⟨⟨?_, ?_⟩, ?_⟩ <;> (intro he; subst he; exact absurd hn (by decide))
  · have hsp : pySpace c = false := by
      simp only [pySpace, Bool.or_eq_false_iff, beq_eq_false_iff_ne, ne_eq]
      omega
    simp only [cleanChar, hsp, Bool.not_false, Bool.true_and, decide_eq_true_eq]
    omega
  all_goals (intro he; subst he; exact absurd hn (by decide))

theorem drop_append_self {a b : Str} : (a ++ b).drop a.length = b :=
  @drop_append_len a b 0

/-- Decomposition of one host alternative of the bare-loopback prefix
match (`re.match` of `_BARE_LOCALHOST_RE` used by `rewrite_localhost_url`). -/
theorem bareHost_case (hst s : Str)
    (h : (hst.isPrefixOf s &&
      ((match s.drop hst.length with
        | ':' :: r2 =>
          decide (2 ≤ (munch Char.isDigit r2).1 ∧ (munch Char.isDigit r2).1 ≤ 5) &&
            ((munch Char.isDigit r2).2.isEmpty ||
              (munch Char.isDigit r2).2.head? == some '/')
        | _ => false) ||
       ((s.drop hst.length).isEmpty || (s.drop hst.length).head? == some '/'))) = true) :
    ∃ port tail, s = hst ++ port ++ tail ∧ (tail = [] ∨ tail.head? = some '/') ∧
      (port = [] ∨ ∃ ds, port = ':' :: ds ∧ ds.all Char.isDigit = true) := by
  simp only [Bool.and_eq_true, Bool.or_eq_true] at h
  obtain ⟨hpre, hrest⟩ := h
  obtain ⟨t, ht⟩ : hst <+: s := List.isPrefixOf_iff_prefix.mp hpre
  subst ht
  rw [drop_append_self] at hrest
  rcases hrest with hm | hrest
  · split at hm
    case h_1 r2 =>
      simp only [Bool.and_eq_true, Bool.or_eq_true, decide_eq_true_eq] at hm
      obtain ⟨hbound, hafter⟩ := hm
      obtain ⟨hsplit, hdig, hlen⟩ := munch_decomp Char.isDigit r2
      refine ⟨':' :: r2.take (munch Char.isDigit r2).1, (munch Char.isDigit r2).2,
        ?_, ?_, ?_⟩
      · rw [List.append_assoc, List.cons_append, hsplit]
      · rcases hafter with h1 | h1
        · left
          simpa [List.isEmpty_iff] using h1
        · right
          simpa using h1
      · exact Or.inr ⟨r2.take (munch Char.isDigit r2).1, rfl, hdig⟩
    case h_2 => exact absurd hm (by simp)
  · refine ⟨[], t, by simp, ?_, Or.inl rfl⟩
    rcases hrest with h1 | h1
    · left
      simpa [List.isEmpty_iff] using h1
    · right
      simpa using h1

theorem bareLoopbackPre_decomp {s : Str} (h : bareLoopbackPre s = true) :
    ∃ host port tail, host ∈ loopbackHosts ∧ s = host ++ port ++ tail ∧
      (tail = [] ∨ tail.head? = some '/') ∧
      (port = [] ∨ ∃ ds, port = ':' :: ds ∧ ds.all Char.isDigit = true) := by
  unfold bareLoopbackPre at h
  simp only [Bool.or_eq_true] at h
  rcases h with (h | h) | h
  · obtain ⟨port, tail, h1, h2, h3⟩ := bareHost_case (str "localhost") s h
    exact ⟨str "localhost", port, tail, by decide, h1, h2, h3⟩
  · obtain ⟨port, tail, h1, h2, h3⟩ := bareHost_case (str "127.0.0.1") s h
    exact ⟨str "127.0.0.1", port, tail, by decide, h1, h2, h3⟩
  · obtain ⟨port, tail, h1, h2, h3⟩ := bareHost_case (str "0.0.0.0") s h
    exact ⟨str "0.0.0.0", port, tail, by decide, h1, h2, h3⟩

/-- Decomposition of a `_BARE_LOCALHOST_RE` alternative match in the
`re.sub` scanner: the matched text is the host, an optional `:` and 2-5
digits, and the position after the match is a word boundary. -/
theorem tryHostAt_decomp {h s : Str} {len : Nat} (hs : tryHostAt h s = some len) :
    ∃ port tail, s = h ++ port ++ tail ∧ len = h.length + port.length ∧
      wordBoundary tail = true ∧
      (port = [] ∨ ∃ ds, port = ':' :: ds ∧ ds.all Char.isDigit = true ∧
        2 ≤ ds.length ∧ ds.length ≤ 5) := by
  unfold tryHostAt at hs
  split at hs
  case isTrue hpre =>
    obtain ⟨t, ht⟩ : h <+: s := List.isPrefixOf_iff_prefix.mp hpre
    subst ht
    rw [drop_append_self] at hs
    dsimp only at hs
    split at hs
    case h_1 r2 =>
      split at hs
      case isTrue hcond =>
        obtain ⟨hsplit, hdig, hlen⟩ := munch_decomp Char.isDigit r2
        injection hs with hlen2
        refine ⟨':' :: r2.take (munch Char.isDigit r2).1, (munch Char.isDigit r2).2,
          ?_, ?_, hcond.2, ?_⟩
        · rw [List.append_assoc, List.cons_append, hsplit]
        · rw [← hlen2, List.length_cons, hlen]
          omega
        · exact Or.inr ⟨r2.take (munch Char.isDigit r2).1, rfl, hdig,
            by rw [hlen]; exact hcond.1.1, by rw [hlen]; exact hcond.1.2⟩
      case isFalse =>
        split at hs
        case isTrue hwb =>
          injection hs with hlen2
          exact ⟨[], ':' :: r2, by simp, by simp [← hlen2], hwb, Or.inl rfl⟩
        case isFalse => exact absurd hs (by simp)
    case h_2 =>
      split at hs
      case isTrue hwb =>
        injection hs with hlen2
        exact ⟨[], t, by simp, by simp [← hlen2], hwb, Or.inl rfl⟩
      case isFalse => exact absurd hs (by simp)
  case isFalse => exact absurd hs (by simp)

theorem matchBareAt_decomp {s : Str} {len : Nat} (hs : matchBareAt s = some len) :
    ∃ host port tail, host ∈ loopbackHosts ∧ s = host ++ port ++ tail ∧
      len = host.length + port.length ∧ wordBoundary tail = true ∧
      (port = [] ∨ ∃ ds, port = ':' :: ds ∧ ds.all Char.isDigit = true ∧
        2 ≤ ds.length ∧ ds.length ≤ 5) := by
  unfold matchBareAt at hs
  split at hs
  case h_1 n hn =>
    injection hs with he
    subst he
    obtain ⟨port, tail, h1, h2, h3, h4⟩ := tryHostAt_decomp hn
    exact ⟨str "localhost", port, tail, by decide, h1, h2, h3, h4⟩
  case h_2 hn0 =>
    split at hs
    case h_1 n hn =>
      injection hs with he
      subst he
      obtain ⟨port, tail, h1, h2, h3, h4⟩ := tryHostAt_decomp hn
      exact ⟨str "127.0.0.1", port, tail, by decide, h1, h2, h3, h4⟩
    case h_2 =>
      obtain ⟨port, tail, h1, h2, h3, h4⟩ := tryHostAt_decomp hs
      exact ⟨str "0.0.0.0", port, tail, by decide, h1, h2, h3, h4⟩

/-- The netloc facts of a bare loopback `host[:port]` text. -/
theorem hostport_facts {host port : Str} (hh : host ∈ loopbackHosts)
    (hp : port = [] ∨ ∃ ds, port = ':' :: ds ∧ ds.all Char.isDigit = true) :
    (host ++ port).all notNetlocEnd = true ∧
    (host ++ port).contains '[' = false ∧ (host ++ port).contains ']' = false ∧
    noWsCtl (host ++ port) = true ∧
    hostnameOf (host ++ port) = host ∧ host ≠ [] := by
  have hhost_spec : host = str "localhost" ∨ host = str "127.0.0.1" ∨
      host = str "0.0.0.0" := by simpa [loopbackHosts] using hh
  have hhostchars : ∀ c ∈ host, notNetlocEnd c = true ∧ cleanChar c = true ∧
      c ≠ '[' ∧ c ≠ ']' ∧ c ≠ '@' := by
    rcases hhost_spec with rfl | rfl | rfl <;> decide
  have hport_facts : ∀ c ∈ port, notNetlocEnd c = true ∧ cleanChar c = true ∧
      c ≠ '[' ∧ c ≠ ']' ∧ c ≠ '@' := by
    intro c hc
    rcases hp with rfl | ⟨ds, rfl, hds⟩
    · cases hc
    · rcases List.mem_cons.mp hc with rfl | hcd
      · exact ⟨by decide, by decide, by decide, by decide, by decide⟩
      · obtain ⟨_, h2, h3, h4, h5, h6, _, _, _⟩ :=
          digit_char_facts (List.all_eq_true.mp hds c hcd)
        exact ⟨h2, h3, h5, h6, h4⟩
  have hboth : ∀ c ∈ host ++ port, notNetlocEnd c = true ∧ cleanChar c = true ∧
      c ≠ '[' ∧ c ≠ ']' ∧ c ≠ '@' := by
    intro c hc
    rcases List.mem_append.mp hc with hc | hc
    · exact hhostchars c hc
    · exact hport_facts c hc
  refine ⟨?_, ?_, ?_, ?_, ?_, ?_⟩
  · rw [List.all_eq_true]
    exact fun c hc => (hboth c hc).1
  · exact elem_eq_false_of_not_mem (fun hmem => (hboth _ hmem).2.2.1 rfl)
  · exact elem_eq_false_of_not_mem (fun hmem => (hboth _ hmem).2.2.2.1 rfl)
  · exact noWsCtl_of_mem (fun c hc => (hboth c hc).2.1)
  · have h1 : lastIdxOf '@' (host ++ port) = none :=
      lastIdxOf_eq_none_of_not_mem (fun hmem => (hboth _ hmem).2.2.2.2 rfl)
    have h2 : (host ++ port).contains '[' = false :=
      elem_eq_false_of_not_mem (fun hmem => (hboth _ hmem).2.2.1 rfl)
    have hheadp : ∀ c, port.head? = some c → (decide ¬(c = ':')) = false := by
      intro c hc
      rcases hp with rfl | ⟨ds, rfl, _⟩
      · simp at hc
      · simp at hc
        subst hc
        decide
    unfold hostnameOf
    rw [h1]
    dsimp only
    rw [h2]
    rcases hhost_spec with rfl | rfl | rfl <;>
      (rw [takeWhile_append_all port (by decide), takeWhile_eq_nil_of_head hheadp,
        List.append_nil]
       rw [if_neg (show ¬(false = true) by decide)]
       decide)
  · rcases hhost_spec with rfl | rfl | rfl <;> decide

theorem noWsCtl_append {a b : Str} (ha : noWsCtl a = true) (hb : noWsCtl b = true) :
    noWsCtl (a ++ b) = true := by
  simp only [noWsCtl, List.all_append, Bool.and_eq_true]
  exact ⟨ha, hb⟩

theorem urlparseE_http_netloc {netloc : Str} (tail : Str)
    (hw : noWsCtl (str "http://" ++ netloc ++ tail) = true)
    (hn : netloc.all notNetlocEnd = true)
    (hb1 : netloc.contains '[' = false) (hb2 : netloc.contains ']' = false)
    (ht : ∀ c, tail.head? = some c → notNetlocEnd c = false) :
    ∃ p : UrlParseRec, urlparseE (str "http://" ++ netloc ++ tail) = some p ∧
      p.scheme = str "http" ∧ p.netloc = netloc := by
  unfold urlparseE
  rw [urlsplitE_http tail hw hn hb1 hb2 ht]
  dsimp only
  split
  · exact ⟨_, rfl, rfl, rfl⟩
  · exact ⟨_, rfl, rfl, rfl⟩

theorem urlparseE_http_nopath {netloc : Str}
    (hw : noWsCtl (str "http://" ++ netloc) = true)
    (hn : netloc.all notNetlocEnd = true)
    (hb1 : netloc.contains '[' = false) (hb2 : netloc.contains ']' = false) :
    urlparseE (str "http://" ++ netloc) = some ⟨str "http", netloc, [], [], [], []⟩ := by
  have hw2 : noWsCtl (str "http://" ++ netloc ++ ([] : Str)) = true := by
    rw [List.append_nil]
    exact hw
  have hs := @urlsplitE_http netloc [] hw2 hn hb1 hb2 (by intro c hc; simp at hc)
  rw [List.append_nil] at hs
  unfold urlparseE
  rw [hs]
  dsimp only
  rw [if_neg (by simp [partitionChar])]
  rfl

/-- When the bare-loopback prefix pattern matches a clean stripped URL, the
scheme-prepended text parses with a loopback hostname, so the rewrite takes
the loopback branch. -/
theorem prepend_parses_loopback {raw : Str} (hw : noWsCtl raw = true)
    (hb : bareLoopbackPre raw = true) :
    ∃ p : UrlParseRec, urlparseE (str "http://" ++ raw) = some p ∧
      p.scheme = str "http" ∧ p.netloc ≠ [] ∧ hostnameOf p.netloc ∈ loopbackHosts := by
  obtain ⟨host, port, tail, hmem, hsplit, htail, hport⟩ := bareLoopbackPre_decomp hb
  obtain ⟨hall, hbr1, hbr2, hclean, hhn, hne⟩ := hostport_facts hmem hport
  subst hsplit
  have hwt : noWsCtl tail = true := by
    refine noWsCtl_of_mem (fun c hc => noWsCtl_mem hw ?_)
    exact List.mem_append.mpr (Or.inr hc)
  have hw_all : noWsCtl (str "http://" ++ (host ++ port) ++ tail) = true :=
    noWsCtl_append (noWsCtl_append (by decide) hclean) hwt
  have hshape : str "http://" ++ (host ++ port ++ tail)
      = str "http://" ++ (host ++ port) ++ tail := by
    simp [List.append_assoc]
  rw [hshape]
  have htail2 : ∀ c, tail.head? = some c → notNetlocEnd c = false := by
    intro c hc
    rcases htail with rfl | hh2
    · simp at hc
    · rw [hh2] at hc
      injection hc with hc
      subst hc
      decide
  obtain ⟨p, hp, hps, hpn⟩ :=
    @urlparseE_http_netloc (host ++ port) tail hw_all hall hbr1 hbr2 htail2
  refine ⟨p, hp, hps, ?_, ?_⟩
  · rw [hpn]
    exact fun hcon => hne (List.append_eq_nil.mp hcon).1
  · rw [hpn, hhn]
    exact hmem

theorem strContains_false_of_slash_not_mem {s : Str} (h : '/' ∉ s) :
    strContains s (str "://") = false := by
  cases hsc : strContains s (str "://") with
  | false => rfl
  | true =>
    exact absurd (((strContains_iff_infixOf s (str "://")).mp hsc).subset (by decide)) h

/-- The bare-loopback prefix pattern accepts the host-with-optional-port
text itself. -/
theorem bareLoopbackPre_hostport {host port : Str} (hmem : host ∈ loopbackHosts)
    (hport : port = [] ∨ ∃ ds, port = ':' :: ds ∧ ds.all Char.isDigit = true ∧
      2 ≤ ds.length ∧ ds.length ≤ 5) :
    bareLoopbackPre (host ++ port) = true := by
  have hmem' : host = str "localhost" ∨ host = str "127.0.0.1" ∨
      host = str "0.0.0.0" := by simpa [loopbackHosts] using hmem
  unfold bareLoopbackPre
  simp only [Bool.or_eq_true]
  rcases hport with rfl | ⟨ds, rfl, hds, hl1, hl2⟩
  · rcases hmem' with rfl | rfl | rfl
    · exact Or.inl (Or.inl (by decide))
    · exact Or.inl (Or.inr (by decide))
    · exact Or.inr (by decide)
  · rcases hmem' with rfl | rfl | rfl
    · refine Or.inl (Or.inl ?_)
      rw [isPrefixOf_self_append]
      rw [drop_append_self]
      simp [munch_all hds, hl1, hl2]
    · refine Or.inl (Or.inr ?_)
      rw [isPrefixOf_self_append]
      rw [drop_append_self]
      simp [munch_all hds, hl1, hl2]
    · refine Or.inr ?_
      rw [isPrefixOf_self_append]
      rw [drop_append_self]
      simp [munch_all hds, hl1, hl2]

/-- Every text matched by `_BARE_LOCALHOST_RE` is rewritten to the internal
base URL itself: the matched host and port become the internal scheme and
netloc, and the match has no path, query or fragment to carry over. -/
theorem rewrite_of_bare_match {host port : Str} (hmem : host ∈ loopbackHosts)
    (hport : port = [] ∨ ∃ ds, port = ':' :: ds ∧ ds.all Char.isDigit = true ∧
      2 ≤ ds.length ∧ ds.length ≤ 5) :
    rewrite_localhost_url (host ++ port) = INTERNAL_FRONTEND_BASE_URL := by
  have hport' : port = [] ∨ ∃ ds, port = ':' :: ds ∧ ds.all Char.isDigit = true := by
    rcases hport with rfl | ⟨ds, rfl, h1, _, _⟩
    · exact Or.inl rfl
    · exact Or.inr ⟨ds, rfl, h1⟩
  obtain ⟨hall, hbr1, hbr2, hclean, hhn, hne⟩ := hostport_facts hmem hport'
  have hstrip : pyStrip (host ++ port) = host ++ port := pyStrip_of_clean hclean
  have hnonempty : (host ++ port).isEmpty = false := by
    rcases host with _ | ⟨c, cs⟩
    · exact absurd rfl hne
    · rfl
  have hnosch : strContains (host ++ port) (str "://") = false := by
    refine strContains_false_of_slash_not_mem ?_
    intro hcon
    have := List.all_eq_true.mp hall _ hcon
    exact absurd this (by decide)
  have hbare := bareLoopbackPre_hostport hmem hport
  have hprep : prependIfBare (host ++ port) = str "http://" ++ (host ++ port) := by
    unfold prependIfBare
    rw [hnosch, hbare]
    rfl
  have hw_all : noWsCtl (str "http://" ++ (host ++ port)) = true :=
    noWsCtl_append (by decide) hclean
  have hparse := @urlparseE_http_nopath (host ++ port) hw_all hall hbr1 hbr2
  unfold rewrite_localhost_url
  dsimp only
  rw [hstrip, hnonempty]
  rw [if_neg (show ¬(false = true) by decide)]
  rw [hprep, hparse]
  dsimp only
  rw [if_pos ⟨by decide, by simp [hnonempty], by rw [hhn]; exact hmem⟩]
  rw [show urlparseE INTERNAL_FRONTEND_BASE_URL =
    some ⟨str "http", str "frontend:5173", [], [], [], []⟩ from by decide]
  dsimp only
  rw [if_pos ⟨by decide, by decide⟩]
  decide

theorem mem_of_takeWhile {p : Char → Bool} {c : Char} {s : Str}
    (h : c ∈ s.takeWhile p) : c ∈ s := (List.takeWhile_sublist p).subset h

theorem mem_of_dropWhile {p : Char → Bool} {c : Char} {s : Str}
    (h : c ∈ s.dropWhile p) : c ∈ s := (List.dropWhile_sublist p).subset h

theorem mem_of_take {c : Char} {n : Nat} {s : Str} (h : c ∈ s.take n) : c ∈ s :=
  (List.take_sublist n s).subset h

theorem mem_of_drop {c : Char} {n : Nat} {s : Str} (h : c ∈ s.drop n) : c ∈ s :=
  (List.drop_sublist n s).subset h

theorem mem_partition1 {c x : Char} {s : Str} (h : c ∈ (partitionChar x s).1) :
    c ∈ s := mem_of_takeWhile h

theorem mem_partition2 {c x : Char} {s : Str} (h : c ∈ (partitionChar x s).2) :
    c ∈ s := mem_of_dropWhile (mem_of_drop h)

theorem mem_processUrl {c : Char} {s : Str} (h : c ∈ processUrl s) : c ∈ s :=
  mem_of_dropWhile ((List.filter_sublist _).subset h)

theorem mem_splitScheme2 {c : Char} {u : Str} (h : c ∈ (splitScheme u).2) :
    c ∈ u := by
  unfold splitScheme at h
  split at h
  · split at h
    · exact mem_of_drop h
    · exact h
  · exact h

theorem mem_splitNetloc2 {c : Char} {u : Str} (h : c ∈ (splitNetloc u).2) :
    c ∈ u := by
  unfold splitNetloc at h
  exact mem_of_drop (mem_of_dropWhile h)

theorem mem_splitparams1 {c : Char} {u : Str} (h : c ∈ (splitparams u).1) :
    c ∈ u := by
  unfold splitparams at h
  split at h
  · split at h
    · split at h
      · exact mem_of_take h
      · exact h
    · exact h
  · split at h
    · exact mem_of_take h
    · exact h

theorem mem_splitparams2 {c : Char} {u : Str} (h : c ∈ (splitparams u).2) :
    c ∈ u := by
  unfold splitparams at h
  split at h
  · split at h
    · split at h
      · exact mem_of_drop h
      · exact absurd h (by simp)
    · exact absurd h (by simp)
  · split at h
    · exact mem_of_drop h
    · exact absurd h (by simp)

theorem urlsplitE_mem {url : Str} {r : UrlSplitRec} (h : urlsplitE url = some r) :
    (∀ c ∈ r.path, c ∈ url) ∧ (∀ c ∈ r.query, c ∈ url) ∧
    (∀ c ∈ r.fragment, c ∈ url) := by
  unfold urlsplitE at h
  dsimp only at h
  split at h
  case h_1 => exact absurd h (by simp)
  case h_2 =>
    rename_i netloc u2 heq
    injection h with h
    subst h
    dsimp only
    have hu2 : ∀ c ∈ u2, c ∈ url := by
      intro c hc
      split at heq
      · split at heq
        · exact absurd heq (by simp)
        · injection heq with heq
          have hco : u2 = (splitNetloc (splitScheme (processUrl url)).2).2 :=
            (congrArg Prod.snd heq).symm
          rw [hco] at hc
          exact mem_processUrl (mem_splitScheme2 (mem_splitNetloc2 hc))
      · injection heq with heq
        have hco : u2 = (splitScheme (processUrl url)).2 :=
          (congrArg Prod.snd heq).symm
        rw [hco] at hc
        exact mem_processUrl (mem_splitScheme2 hc)
    exact ⟨fun c hc => hu2 c (mem_partition1 (mem_partition1 hc)),
      fun c hc => hu2 c (mem_partition1 (mem_partition2 hc)),
      fun c hc => hu2 c (mem_partition2 hc)⟩

theorem urlparseE_mem {url : Str} {p : UrlParseRec} (h : urlparseE url = some p) :
    (∀ c ∈ p.path, c ∈ url) ∧ (∀ c ∈ p.params, c ∈ url) ∧
    (∀ c ∈ p.query, c ∈ url) ∧ (∀ c ∈ p.fragment, c ∈ url) := by
  unfold urlparseE at h
  split at h
  case h_1 => exact absurd h (by simp)
  case h_2 s hs =>
    obtain ⟨hp, hq, hf⟩ := urlsplitE_mem hs
    split at h <;> (injection h with h; subst h; dsimp only)
    · exact ⟨fun c hc => hp c (mem_splitparams1 hc),
        fun c hc => hp c (mem_splitparams2 hc), hq, hf⟩
    · exact ⟨hp, fun c hc => absurd hc (by simp), hq, hf⟩

/-- Shape of `urlunparse` output for the internal scheme and netloc: a
concrete `http://frontend:5173` prefix followed by a tail that is empty or
opens with `/`, `?` or `#`, whose characters come from the carried-over
components and the joining punctuation. -/
theorem urlunparseR_shape (path params query fragment : Str) :
    ∃ tail,
      urlunparseR ⟨str "http", str "frontend:5173", path, params, query, fragment⟩
        = str "http://frontend:5173" ++ tail ∧
      (tail = [] ∨ tail.head? = some '/' ∨ tail.head? = some '?' ∨
        tail.head? = some '#') ∧
      (∀ c ∈ tail, c ∈ path ∨ c ∈ params ∨ c ∈ query ∨ c ∈ fragment ∨
        c = '/' ∨ c = ';' ∨ c = '?' ∨ c = '#') := by
  unfold urlunparseR urlunsplitS
  dsimp only
  rw [if_pos (Or.inl (by decide : ¬(str "frontend:5173").isEmpty = true))]
  rw [if_pos (by decide : ¬(str "http").isEmpty = true)]
  set u0 := if ¬params.isEmpty = true then path ++ ';' :: params else path with hu0
  set slash := if ¬u0.isEmpty = true ∧ u0.head? ≠ some '/' then '/' :: u0 else u0 with hs
  have hu0mem : ∀ c ∈ u0, c ∈ path ∨ c ∈ params ∨ c = ';' := by
    intro c hc
    rw [hu0] at hc
    split at hc
    · rcases List.mem_append.mp hc with hc | hc
      · exact Or.inl hc
      · rcases List.mem_cons.mp hc with rfl | hc
        · exact Or.inr (Or.inr rfl)
        · exact Or.inr (Or.inl hc)
    · exact Or.inl hc
  have hsl : slash = [] ∨ slash.head? = some '/' := by
    rw [hs]
    split
    · right
      rfl
    · rename_i hcond
      push_neg at hcond
      by_cases h1 : u0.isEmpty = true
      · left
        simpa [List.isEmpty_iff] using h1
      · right
        exact hcond (by simpa using h1)
  have hslmem : ∀ c ∈ slash, c ∈ path ∨ c ∈ params ∨ c = '/' ∨ c = ';' := by
    intro c hc
    have hstep : c ∈ u0 → c ∈ path ∨ c ∈ params ∨ c = '/' ∨ c = ';' := by
      intro hcu
      rcases hu0mem c hcu with h | h | h
      · exact Or.inl h
      · exact Or.inr (Or.inl h)
      · exact Or.inr (Or.inr (Or.inr h))
    rw [hs] at hc
    split at hc
    · rcases List.mem_cons.mp hc with rfl | hc
      · exact Or.inr (Or.inr (Or.inl rfl))
      · exact hstep hc
    · exact hstep hc
  have hB : str "http" ++ ':' :: (str "//" ++ str "frontend:5173" ++ slash)
      = str "http://frontend:5173" ++ slash := rfl
  have hhead : ∀ (a b : Str), a.head? = some '/' → (a ++ b).head? = some '/' := by
    intro a b ha
    cases a with
    | nil => simp at ha
    | cons x xs => simpa using ha
  by_cases hq : query.isEmpty = true <;> by_cases hf : fragment.isEmpty = true
  · rw [if_neg (by simp [hf]), if_neg (by simp [hq])]
    refine ⟨slash, hB, ?_, ?_⟩
    · rcases hsl with h | h
      · exact Or.inl h
      · exact Or.inr (Or.inl h)
    · intro c hc
      rcases hslmem c hc with h | h | h | h
      · exact Or.inl h
      · exact Or.inr (Or.inl h)
      · exact Or.inr (Or.inr (Or.inr (Or.inr (Or.inl h))))
      · exact Or.inr (Or.inr (Or.inr (Or.inr (Or.inr (Or.inl h)))))
  · rw [if_pos (by simp [hf]), if_neg (by simp [hq])]
    refine ⟨slash ++ '#' :: fragment, by rw [hB, List.append_assoc], ?_, ?_⟩
    · rcases hsl with h | h
      · rw [h]
        exact Or.inr (Or.inr (Or.inr (by simp)))
      · exact Or.inr (Or.inl (hhead _ _ h))
    · intro c hc
      rcases List.mem_append.mp hc with hc | hc
      · rcases hslmem c hc with h | h | h | h
        · exact Or.inl h
        · exact Or.inr (Or.inl h)
        · exact Or.inr (Or.inr (Or.inr (Or.inr (Or.inl h))))
        · exact Or.inr (Or.inr (Or.inr (Or.inr (Or.inr (Or.inl h)))))
      · rcases List.mem_cons.mp hc with rfl | hc
        · exact Or.inr (Or.inr (Or.inr (Or.inr (Or.inr (Or.inr (Or.inr rfl))))))
        · exact Or.inr (Or.inr (Or.inr (Or.inl hc)))
  · rw [if_neg (by simp [hf]), if_pos (by simp [hq])]
    refine ⟨slash ++ '?' :: query, by rw [hB, List.append_assoc], ?_, ?_⟩
    · rcases hsl with h | h
      · rw [h]
        exact Or.inr (Or.inr (Or.inl (by simp)))
      · exact Or.inr (Or.inl (hhead _ _ h))
    · intro c hc
      rcases List.mem_append.mp hc with hc | hc
      · rcases hslmem c hc with h | h | h | h
        · exact Or.inl h
        · exact Or.inr (Or.inl h)
        · exact Or.inr (Or.inr (Or.inr (Or.inr (Or.inl h))))
        · exact Or.inr (Or.inr (Or.inr (Or.inr (Or.inr (Or.inl h)))))
      · rcases List.mem_cons.mp hc with rfl | hc
        · exact Or.inr (Or.inr (Or.inr (Or.inr (Or.inr (Or.inr (Or.inl rfl))))))
        · exact Or.inr (Or.inr (Or.inl hc))
  · rw [if_pos (by simp [hf]), if_pos (by simp [hq])]
    refine ⟨slash ++ '?' :: query ++ '#' :: fragment,
      by rw [hB]; simp [List.append_assoc], ?_, ?_⟩
    · rcases hsl with h | h
      · rw [h]
        exact Or.inr (Or.inr (Or.inl (by simp)))
      · exact Or.inr (Or.inl (hhead _ _ (hhead _ _ h)))
    · intro c hc
      rcases List.mem_append.mp hc with hc | hc
      · rcases List.mem_append.mp hc with hc | hc
        · rcases hslmem c hc with h | h | h | h
          · exact Or.inl h
          · exact Or.inr (Or.inl h)
          · exact Or.inr (Or.inr (Or.inr (Or.inr (Or.inl h))))
          · exact Or.inr (Or.inr (Or.inr (Or.inr (Or.inr (Or.inl h)))))
        · rcases List.mem_cons.mp hc with rfl | hc
          · exact Or.inr (Or.inr (Or.inr (Or.inr (Or.inr (Or.inr (Or.inl rfl))))))
          · exact Or.inr (Or.inr (Or.inl hc))
      · rcases List.mem_cons.mp hc with rfl | hc
        · exact Or.inr (Or.inr (Or.inr (Or.inr (Or.inr (Or.inr (Or.inr rfl))))))
        · exact Or.inr (Or.inr (Or.inr (Or.inl hc)))

/-- Branch characterisation of `rewrite_localhost_url` on inputs whose
stripped form is non-empty: the internal base URL parses to the concrete
`http` / `frontend:5173` pieces, so the loopback branch emits
`urlunparse` of those with the carried-over path, params, query and
fragment, and every other branch returns the (possibly scheme-prepended)
stripped input. -/
theorem rewrite_localhost_url_eq {u : Str} (hne : (pyStrip u).isEmpty = false) :
    rewrite_localhost_url u =
      (match urlparseE (prependIfBare (pyStrip u)) with
       | none => prependIfBare (pyStrip u)
       | some p =>
         if ¬p.scheme.isEmpty ∧ ¬p.netloc.isEmpty ∧
             hostnameOf p.netloc ∈ loopbackHosts then
           urlunparseR ⟨str "http", str "frontend:5173",
             p.path, p.params, p.query, p.fragment⟩
         else prependIfBare (pyStrip u)) := by
  unfold rewrite_localhost_url
  dsimp only
  rw [hne, if_neg (show ¬(false = true) by decide)]
  split
  case h_1 => rfl
  case h_2 p heq =>
    split
    · rw [show urlparseE INTERNAL_FRONTEND_BASE_URL
        = some ⟨str "http", str "frontend:5173", [], [], [], []⟩ from by decide]
      dsimp only
      rw [if_pos ⟨by decide, by decide⟩]
    · rfl

theorem rewrite_fixes_internal_output {tail : Str}
    (hw : noWsCtl (str "http://frontend:5173" ++ tail) = true)
    (ht : tail = [] ∨ tail.head? = some '/' ∨ tail.head? = some '?' ∨
      tail.head? = some '#') :
    rewrite_localhost_url (str "http://frontend:5173" ++ tail)
      = str "http://frontend:5173" ++ tail := by
  have hstrip : pyStrip (str "http://frontend:5173" ++ tail)
      = str "http://frontend:5173" ++ tail := pyStrip_of_clean hw
  have hne : (pyStrip (str "http://frontend:5173" ++ tail)).isEmpty = false := by
    rw [hstrip]
    rfl
  have hcontains : strContains (str "http://frontend:5173" ++ tail) (str "://")
      = true := by
    refine (strContains_iff_infixOf _ _).mpr ?_
    have hmid : str "://" <:+: str "http://frontend:5173" := by decide
    exact hmid.trans ⟨[], tail, by simp⟩
  have hprep : prependIfBare (str "http://frontend:5173" ++ tail)
      = str "http://frontend:5173" ++ tail := by
    unfold prependIfBare
    rw [hcontains]
    rfl
  have htail2 : ∀ c, tail.head? = some c → notNetlocEnd c = false := by
    intro c hc
    rcases ht with rfl | hh | hh | hh
    · simp at hc
    · rw [hh] at hc
      injection hc with hc
      subst hc
      decide
    · rw [hh] at hc
      injection hc with hc
      subst hc
      decide
    · rw [hh] at hc
      injection hc with hc
      subst hc
      decide
  obtain ⟨p, hp, hps, hpn⟩ :=
    @urlparseE_http_netloc (str "frontend:5173") tail hw (by decide)
      (by decide) (by decide) htail2
  rw [rewrite_localhost_url_eq hne, hstrip, hprep]
  rw [show urlparseE (str "http://frontend:5173" ++ tail) = some p from hp]
  dsimp only
  rw [if_neg ?notloop]
  case notloop =>
    rintro ⟨_, _, hmem⟩
    rw [hpn] at hmem
    exact absurd hmem (by decide)

theorem noWsCtl_prependIfBare {r : Str} (h : noWsCtl r = true) :
    noWsCtl (prependIfBare r) = true := by
  unfold prependIfBare
  split
  · exact noWsCtl_append (by decide) h
  · exact h

/-- `rewrite_localhost_url` is idempotent on inputs whose stripped form has
no embedded whitespace or control characters. -/
theorem rewrite_localhost_url_idem {u : Str} (hw : noWsCtl (pyStrip u) = true) :
    rewrite_localhost_url (rewrite_localhost_url u) = rewrite_localhost_url u := by
  by_cases hr0 : (pyStrip u).isEmpty = true
  · have hnil : pyStrip u = [] := by simpa [List.isEmpty_iff] using hr0
    have h1 : rewrite_localhost_url u = [] := by
      unfold rewrite_localhost_url
      rw [hnil]
      rfl
    rw [h1]
    rfl
  · have hne : (pyStrip u).isEmpty = false := by
      cases hh : (pyStrip u).isEmpty
      · rfl
      · exact absurd hh hr0
    have heq := rewrite_localhost_url_eq hne
    cases hp : urlparseE (prependIfBare (pyStrip u)) with
    | none =>
      rw [hp] at heq
      dsimp only at heq
      by_cases hc : (!strContains (pyStrip u) (str "://")
          && bareLoopbackPre (pyStrip u)) = true
      · exfalso
        have hb : bareLoopbackPre (pyStrip u) = true := by
          simp only [Bool.and_eq_true] at hc
          exact hc.2
        obtain ⟨p, hp2, _, _, _⟩ := prepend_parses_loopback hw hb
        have hpre : prependIfBare (pyStrip u) = str "http://" ++ pyStrip u := by
          unfold prependIfBare
          rw [if_pos hc]
        rw [hpre] at hp
        rw [hp] at hp2
        exact Option.noConfusion hp2
      · have hpre : prependIfBare (pyStrip u) = pyStrip u := by
          unfold prependIfBare
          rw [if_neg hc]
        rw [hpre] at heq hp
        rw [heq]
        have hstrip2 : pyStrip (pyStrip u) = pyStrip u := pyStrip_idem u
        have hne2 : (pyStrip (pyStrip u)).isEmpty = false := by
          rw [hstrip2]
          exact hne
        rw [rewrite_localhost_url_eq hne2, hstrip2, hpre, hp]
    | some p =>
      rw [hp] at heq
      dsimp only at heq
      by_cases hcond : ¬p.scheme.isEmpty ∧ ¬p.netloc.isEmpty ∧
          hostnameOf p.netloc ∈ loopbackHosts
      · rw [if_pos hcond] at heq
        obtain ⟨tail, htl, hhead, hmemtail⟩ :=
          urlunparseR_shape p.path p.params p.query p.fragment
        have hprep_clean : noWsCtl (prependIfBare (pyStrip u)) = true :=
          noWsCtl_prependIfBare hw
        obtain ⟨hm1, hm2, hm3, hm4⟩ := urlparseE_mem hp
        have htailclean : noWsCtl tail = true := by
          refine noWsCtl_of_mem ?_
          intro c hc
          rcases hmemtail c hc with h | h | h | h | rfl | rfl | rfl | rfl
          · exact noWsCtl_mem hprep_clean (hm1 c h)
          · exact noWsCtl_mem hprep_clean (hm2 c h)
          · exact noWsCtl_mem hprep_clean (hm3 c h)
          · exact noWsCtl_mem hprep_clean (hm4 c h)
          · decide
          · decide
          · decide
          · decide
        rw [heq, htl]
        exact rewrite_fixes_internal_output (noWsCtl_append (by decide) htailclean) hhead
      · rw [if_neg hcond] at heq
        by_cases hc : (!strContains (pyStrip u) (str "://")
            && bareLoopbackPre (pyStrip u)) = true
        · exfalso
          have hb : bareLoopbackPre (pyStrip u) = true := by
            simp only [Bool.and_eq_true] at hc
            exact hc.2
          obtain ⟨p2, hp2, hs2, hn2, hh2⟩ := prepend_parses_loopback hw hb
          have hpre : prependIfBare (pyStrip u) = str "http://" ++ pyStrip u := by
            unfold prependIfBare
            rw [if_pos hc]
          rw [hpre] at hp
          rw [hp] at hp2
          injection hp2 with hp2
          subst hp2
          refine hcond ⟨?_, ?_, hh2⟩
          · rw [hs2]
            decide
          · intro hcon
            exact hn2 (by simpa [List.isEmpty_iff] using hcon)
        · have hpre : prependIfBare (pyStrip u) = pyStrip u := by
            unfold prependIfBare
            rw [if_neg hc]
          rw [hpre] at heq hp
          rw [heq]
          have hstrip2 : pyStrip (pyStrip u) = pyStrip u := pyStrip_idem u
          have hne2 : (pyStrip (pyStrip u)).isEmpty = false := by
            rw [hstrip2]
            exact hne
          rw [rewrite_localhost_url_eq hne2, hstrip2, hpre, hp]
          dsimp only
          rw [if_neg hcond]

theorem drop_append_of_le {n : Nat} {a : Str} (b : Str) (h : n ≤ a.length) :
    (a ++ b).drop n = a.drop n ++ b := by
  induction a generalizing n with
  | nil =>
    simp at h
    subst h
    simp
  | cons x xs ih =>
    cases n with
    | zero => simp
    | succ m =>
      simp only [List.cons_append, List.drop_succ_cons]
      exact ih (by simpa using h)

theorem isPrefixOf_append_drop {p a : Str} {b : Str}
    (h : p.isPrefixOf (a ++ b) = true) (hl : a.length ≤ p.length) :
    (p.drop a.length).isPrefixOf b = true := by
  induction a generalizing p with
  | nil => simpa using h
  | cons x xs ih =>
    cases p with
    | nil => simp at hl
    | cons y ys =>
      simp only [List.cons_append, List.isPrefixOf, Bool.and_eq_true] at h
      simp only [List.length_cons, List.drop_succ_cons]
      exact ih h.2 (by simpa using hl)

theorem tryHostAt_none_of_head {h s : Str} {d : Char} {rest : Str}
    (hrest : s.drop h.length = d :: rest) (hd : isWordChar d = true)
    (hdc : d ≠ ':') : tryHostAt h s = none := by
  unfold tryHostAt
  split
  · rw [hrest]
    dsimp only
    split
    case h_1 r2 heq =>
      injection heq with h1 _
      exact absurd h1 hdc
    case h_2 =>
      rw [if_neg]
      simp [wordBoundary, hd]
  · rfl


theorem tryHostAt_none_elim {h s : Str} (hpre : h.isPrefixOf s = true)
    (hnone : tryHostAt h s = none) :
    ∃ d rest, s.drop h.length = d :: rest ∧ isWordChar d = true ∧ d ≠ ':' := by
  unfold tryHostAt at hnone
  rw [if_pos hpre] at hnone
  cases hrest : s.drop h.length with
  | nil =>
    rw [hrest] at hnone
    exact Option.noConfusion hnone
  | cons d rest =>
    rw [hrest] at hnone
    dsimp only at hnone
    by_cases hdc : d = ':'
    · subst hdc
      exfalso
      split at hnone
      · rename_i r2 heq
        injection heq with h1 h2
        subst h2
        by_cases hcond : (2 ≤ (munch Char.isDigit rest).1 ∧
            (munch Char.isDigit rest).1 ≤ 5) ∧
            wordBoundary (munch Char.isDigit rest).2 = true
        · rw [if_pos hcond] at hnone
          exact Option.noConfusion hnone
        · rw [if_neg hcond,
            if_pos (show wordBoundary (':' :: rest) = true from rfl)] at hnone
          exact Option.noConfusion hnone
      · rename_i hne2
        exact hne2 rest rfl
    · refine ⟨d, rest, rfl, ?_, hdc⟩
      split at hnone
      · rename_i r2 heq
        injection heq with h1 _
        exact absurd h1 hdc
      · split at hnone
        · exact Option.noConfusion hnone
        · rename_i hwb
          simpa [wordBoundary] using hwb

theorem matchBareAt_none_iff {s : Str} :
    matchBareAt s = none ↔
      tryHostAt (str "localhost") s = none ∧
      tryHostAt (str "127.0.0.1") s = none ∧
      tryHostAt (str "0.0.0.0") s = none := by
  unfold matchBareAt
  cases h1 : tryHostAt (str "localhost") s <;>
    cases h2 : tryHostAt (str "127.0.0.1") s <;>
    cases h3 : tryHostAt (str "0.0.0.0") s <;> simp [h1, h2, h3]

theorem tryHostAt_transfer {hst pre s2 t2 : Str}
    (hh : hst ∈ loopbackHosts)
    (hC : INTERNAL_FRONTEND_BASE_URL.isPrefixOf t2 = true)
    (hnone : tryHostAt hst (pre ++ s2) = none) :
    tryHostAt hst (pre ++ t2) = none := by
  by_cases hpre : hst.isPrefixOf (pre ++ t2) = true
  · by_cases hlen : hst.length ≤ pre.length
    · have hpre_s : hst.isPrefixOf (pre ++ s2) = true := by
        rw [isPrefixOf_append_of_le s2 hlen]
        rw [isPrefixOf_append_of_le t2 hlen] at hpre
        exact hpre
      obtain ⟨d, rest, hdrop, hd, hdc⟩ := tryHostAt_none_elim hpre_s hnone
      rw [drop_append_of_le s2 hlen] at hdrop
      cases hpd : pre.drop hst.length with
      | nil =>
        obtain ⟨t3, ht3⟩ := List.isPrefixOf_iff_prefix.mp hC
        have hrest2 : (pre ++ t2).drop hst.length
            = 'h' :: (str "ttp://frontend:5173" ++ t3) := by
          rw [drop_append_of_le t2 hlen, hpd, List.nil_append, ← ht3]
          rfl
        exact tryHostAt_none_of_head hrest2 (by decide) (by decide)
      | cons e pre2 =>
        rw [hpd] at hdrop
        have he : e = d := by
          simpa using congrArg List.head? hdrop
        subst he
        have hrest2 : (pre ++ t2).drop hst.length = e :: (pre2 ++ t2) := by
          rw [drop_append_of_le t2 hlen, hpd]
          rfl
        exact tryHostAt_none_of_head hrest2 hd hdc
    · push_neg at hlen
      exfalso
      have hdp : (hst.drop pre.length).isPrefixOf t2 = true :=
        isPrefixOf_append_drop hpre (Nat.le_of_lt hlen)
      obtain ⟨t3, ht3⟩ := List.isPrefixOf_iff_prefix.mp hC
      rw [← ht3] at hdp
      have hmem2 : hst = str "localhost" ∨ hst = str "127.0.0.1" ∨
          hst = str "0.0.0.0" := by simpa [loopbackHosts] using hh
      have h20 : hst.length ≤ INTERNAL_FRONTEND_BASE_URL.length := by
        rcases hmem2 with rfl | rfl | rfl <;> decide
      have hlc : (hst.drop pre.length).length
          ≤ INTERNAL_FRONTEND_BASE_URL.length := by
        rw [List.length_drop]
        exact Nat.le_trans (Nat.sub_le _ _) h20
      rw [isPrefixOf_append_of_le t3 hlc] at hdp
      have hfact : ∀ j, j < hst.length →
          (hst.drop j).isPrefixOf INTERNAL_FRONTEND_BASE_URL = false := by
        rcases hmem2 with rfl | rfl | rfl <;> decide
      rw [hfact pre.length hlen] at hdp
      exact Bool.noConfusion hdp
  · unfold tryHostAt
    rw [if_neg hpre]

theorem bareSubGo_zero (pw : Bool) (s : Str) : bareSubGo 0 pw s = s := rfl

theorem bareSubGo_nil (fuel : Nat) (pw : Bool) : bareSubGo (fuel + 1) pw [] = [] := rfl

theorem bareSubGo_cons_true (fuel : Nat) (c : Char) (cs : Str) :
    bareSubGo (fuel + 1) true (c :: cs) = c :: bareSubGo fuel (isWordChar c) cs := rfl

theorem bareSubGo_cons_false (fuel : Nat) (c : Char) (cs : Str) :
    bareSubGo (fuel + 1) false (c :: cs)
      = match matchBareAt (c :: cs) with
        | some len => rewrite_localhost_url ((c :: cs).take len)
            ++ bareSubGo fuel true ((c :: cs).drop len)
        | none => c :: bareSubGo fuel (isWordChar c) cs := rfl

/-- A `_BARE_LOCALHOST_RE` match is non-empty, fits in the text, and its
matched text rewrites to the internal base URL. -/
theorem matchBareAt_take {s : Str} {len : Nat} (hs : matchBareAt s = some len) :
    rewrite_localhost_url (s.take len) = INTERNAL_FRONTEND_BASE_URL ∧
    1 ≤ len ∧ len ≤ s.length := by
  obtain ⟨host, port, tail, hmem, hsplit, hlen, hwb, hport⟩ := matchBareAt_decomp hs
  have hmem2 : host = str "localhost" ∨ host = str "127.0.0.1" ∨
      host = str "0.0.0.0" := by simpa [loopbackHosts] using hmem
  have hlen2 : len = (host ++ port).length := by
    rw [List.length_append]
    exact hlen
  have htake : s.take len = host ++ port := by
    rw [hsplit, hlen2]
    exact take_append_len tail
  refine ⟨?_, ?_, ?_⟩
  · rw [htake]
    exact rewrite_of_bare_match hmem hport
  · have h1 : 1 ≤ host.length := by rcases hmem2 with rfl | rfl | rfl <;> decide
    rw [hlen]
    omega
  · rw [hsplit, hlen2]
    simp [List.length_append]

/-- A text and a partially rewritten form of it: identical, or agreeing on
a common prefix after which the rewritten side opens with the internal
base URL — the shape every `bareSubGo` output has relative to its input. -/
def SimTo (s t : Str) : Prop :=
  s = t ∨ ∃ pre s2 t2, s = pre ++ s2 ∧ t = pre ++ t2 ∧
    INTERNAL_FRONTEND_BASE_URL.isPrefixOf t2 = true

theorem matchBareAt_transfer {s t : Str} (hsim : SimTo s t)
    (hnone : matchBareAt s = none) : matchBareAt t = none := by
  rcases hsim with rfl | ⟨pre, s2, t2, rfl, rfl, hC⟩
  · exact hnone
  · obtain ⟨n1, n2, n3⟩ := matchBareAt_none_iff.mp hnone
    exact matchBareAt_none_iff.mpr
      ⟨tryHostAt_transfer (by decide) hC n1,
       tryHostAt_transfer (by decide) hC n2,
       tryHostAt_transfer (by decide) hC n3⟩

theorem simTo_bareSubGo (fuel : Nat) : ∀ (w : Bool) (s : Str),
    SimTo s (bareSubGo fuel w s) := by
  induction fuel with
  | zero => exact fun w s => Or.inl rfl
  | succ fuel ih =>
    intro w s
    cases s with
    | nil => exact Or.inl rfl
    | cons c cs =>
      have step : ∀ w2 : Bool, SimTo (c :: cs)
          (c :: bareSubGo fuel (isWordChar c) cs) := by
        intro w2
        rcases ih (isWordChar c) cs with he | ⟨pre, s2, t2, h1, h2, hC⟩
        · exact Or.inl (congrArg (List.cons c) he)
        · refine Or.inr ⟨c :: pre, s2, t2, ?_, ?_, hC⟩
          · rw [h1, List.cons_append]
          · rw [h2, List.cons_append]
      cases w with
      | true =>
        rw [bareSubGo_cons_true]
        exact step true
      | false =>
        rw [bareSubGo_cons_false]
        cases hm : matchBareAt (c :: cs) with
        | none =>
          exact step false
        | some len =>
          dsimp only
          obtain ⟨hrw, _, _⟩ := matchBareAt_take hm
          refine Or.inr ⟨[], c :: cs,
            rewrite_localhost_url ((c :: cs).take len)
              ++ bareSubGo fuel true ((c :: cs).drop len), by simp, by simp, ?_⟩
          rw [hrw]
          exact isPrefixOf_self_append _ _

theorem tryHostAt_none_inside {hst : Str} (hh : hst ∈ loopbackHosts) (X : Str)
    {j : Nat} (hj : j < INTERNAL_FRONTEND_BASE_URL.length) :
    tryHostAt hst (INTERNAL_FRONTEND_BASE_URL.drop j ++ X) = none := by
  have hfact : ∀ j2, j2 < INTERNAL_FRONTEND_BASE_URL.length →
      ∀ h2 ∈ loopbackHosts,
        h2.isPrefixOf (INTERNAL_FRONTEND_BASE_URL.drop j2) = false ∧
        (INTERNAL_FRONTEND_BASE_URL.drop j2).isPrefixOf h2 = false := by decide
  by_cases hc : hst.length ≤ (INTERNAL_FRONTEND_BASE_URL.drop j).length
  · unfold tryHostAt
    rw [isPrefixOf_append_of_le X hc, (hfact j hj hst hh).1]
    rfl
  · push_neg at hc
    by_cases hp : hst.isPrefixOf (INTERNAL_FRONTEND_BASE_URL.drop j ++ X) = true
    · exfalso
      have h2 := prefix_trans_append hp (Nat.le_of_lt hc)
      rw [(hfact j hj hst hh).2] at h2
      exact Bool.noConfusion h2
    · unfold tryHostAt
      rw [if_neg hp]

theorem matchBareAt_inside_internal (X : Str) {j : Nat}
    (hj : j < INTERNAL_FRONTEND_BASE_URL.length) :
    matchBareAt (INTERNAL_FRONTEND_BASE_URL.drop j ++ X) = none :=
  matchBareAt_none_iff.mpr
    ⟨tryHostAt_none_inside (by decide) X hj,
     tryHostAt_none_inside (by decide) X hj,
     tryHostAt_none_inside (by decide) X hj⟩

/-- `bareSubGo` scans straight through a copy of the internal base URL:
no pattern position inside it matches, and it ends in a word character. -/
theorem bareSubGo_through (X : Str) : ∀ (cs : Str) (j : Nat),
    j < INTERNAL_FRONTEND_BASE_URL.length →
    cs = INTERNAL_FRONTEND_BASE_URL.drop j →
    ∀ (g : Nat) (pw : Bool),
      bareSubGo (cs.length + g) pw (cs ++ X) = cs ++ bareSubGo g true X := by
  intro cs
  induction cs with
  | nil =>
    intro j hj hcs g pw
    exfalso
    have h2 := congrArg List.length hcs
    rw [List.length_drop] at h2
    simp only [List.length_nil] at h2
    omega
  | cons c cs ih =>
    intro j hj hcs g pw
    have hfuel : (c :: cs).length + g = (cs.length + g) + 1 := by
      simp only [List.length_cons]
      omega
    rw [hfuel, List.cons_append]
    have hnone : matchBareAt (c :: (cs ++ X)) = none := by
      have hshape : c :: (cs ++ X) = INTERNAL_FRONTEND_BASE_URL.drop j ++ X := by
        rw [← List.cons_append, hcs]
      rw [hshape]
      exact matchBareAt_inside_internal X hj
    have hstep : bareSubGo ((cs.length + g) + 1) pw (c :: (cs ++ X))
        = c :: bareSubGo (cs.length + g) (isWordChar c) (cs ++ X) := by
      cases pw with
      | true => exact bareSubGo_cons_true _ c _
      | false =>
        rw [bareSubGo_cons_false, hnone]
    rw [hstep]
    by_cases hcs2 : cs = []
    · subst hcs2
      have hlast : c :: ([] : Str) = INTERNAL_FRONTEND_BASE_URL.drop j := hcs
      have hlen20 : INTERNAL_FRONTEND_BASE_URL.length = 20 := by decide
      have hj19 : j = 19 := by
        have h2 := congrArg List.length hlast
        rw [List.length_drop, hlen20] at h2
        simp only [List.length_cons, List.length_nil] at h2
        omega
      subst hj19
      have hc3 : c = '3' := by
        have h2 := congrArg List.head? hlast
        rw [show (INTERNAL_FRONTEND_BASE_URL.drop 19).head? = some '3' from by decide] at h2
        simpa using h2
      subst hc3
      rw [show isWordChar '3' = true from by decide]
      simp
    · have hj1 : j + 1 < INTERNAL_FRONTEND_BASE_URL.length := by
        by_contra hcon
        push_neg at hcon
        have hnil : INTERNAL_FRONTEND_BASE_URL.drop (j + 1) = [] := by
          rw [List.drop_eq_nil_iff]
          exact hcon
        have htl := congrArg List.tail hcs
        rw [List.tail_drop] at htl
        simp only [List.tail_cons] at htl
        exact hcs2 (htl.trans hnil)
      have hcs3 : cs = INTERNAL_FRONTEND_BASE_URL.drop (j + 1) := by
        have htl := congrArg List.tail hcs
        rw [List.tail_drop] at htl
        simpa using htl
      rw [ih (j + 1) hj1 hcs3 g (isWordChar c), List.cons_append]

/-- The `re.sub` scan of `_rewrite_localhost_in_text` is idempotent: every
replacement inserts the internal base URL, inside which no new match can
start, across whose edges no match can straddle, and after which the
scanner is in the same word-boundary state as after the original match. -/
theorem bareSubGo_idem : ∀ (fuel : Nat) (pw : Bool) (s : Str), s.length ≤ fuel →
    bareSubGo (bareSubGo fuel pw s).length pw (bareSubGo fuel pw s)
      = bareSubGo fuel pw s := by
  intro fuel
  induction fuel with
  | zero =>
    intro pw s hs
    have hnil : s = [] := List.length_eq_zero.mp (Nat.le_zero.mp hs)
    subst hnil
    rfl
  | succ fuel ih =>
    intro pw s hs
    cases s with
    | nil => rfl
    | cons c cs =>
      have hcs : cs.length ≤ fuel := by
        simp only [List.length_cons] at hs
        omega
      cases pw with
      | true =>
        rw [bareSubGo_cons_true]
        rw [show (c :: bareSubGo fuel (isWordChar c) cs).length
            = (bareSubGo fuel (isWordChar c) cs).length + 1 from by simp]
        rw [bareSubGo_cons_true]
        rw [ih (isWordChar c) cs hcs]
      | false =>
        cases hm : matchBareAt (c :: cs) with
        | none =>
          rw [bareSubGo_cons_false, hm]
          dsimp only
          rw [show (c :: bareSubGo fuel (isWordChar c) cs).length
              = (bareSubGo fuel (isWordChar c) cs).length + 1 from by simp]
          rw [bareSubGo_cons_false]
          have hnone2 : matchBareAt (c :: bareSubGo fuel (isWordChar c) cs)
              = none := by
            refine matchBareAt_transfer ?_ hm
            rcases simTo_bareSubGo fuel (isWordChar c) cs with
              he | ⟨pre, s2, t2, h1, h2, hC⟩
            · exact Or.inl (congrArg (List.cons c) he)
            · exact Or.inr ⟨c :: pre, s2, t2, by rw [h1, List.cons_append],
                by rw [h2, List.cons_append], hC⟩
          rw [hnone2]
          dsimp only
          rw [ih (isWordChar c) cs hcs]
        | some len =>
          rw [bareSubGo_cons_false, hm]
          dsimp only
          obtain ⟨hrw, hl1, hl2⟩ := matchBareAt_take hm
          rw [hrw]
          rw [show (INTERNAL_FRONTEND_BASE_URL
              ++ bareSubGo fuel true ((c :: cs).drop len)).length
              = INTERNAL_FRONTEND_BASE_URL.length
                + (bareSubGo fuel true ((c :: cs).drop len)).length from by
            simp [List.length_append]]
          rw [bareSubGo_through (bareSubGo fuel true ((c :: cs).drop len))
            INTERNAL_FRONTEND_BASE_URL 0 (by decide) (by simp)
            ((bareSubGo fuel true ((c :: cs).drop len)).length) false]
          have hd : ((c :: cs).drop len).length ≤ fuel := by
            rw [List.length_drop]
            simp only [List.length_cons] at hs ⊢
            omega
          rw [ih true ((c :: cs).drop len) hd]

theorem rewrite_localhost_in_text_idem (t : Str) :
    rewrite_localhost_in_text (rewrite_localhost_in_text t)
      = rewrite_localhost_in_text t := by
  unfold rewrite_localhost_in_text
  by_cases ht : t.isEmpty = true
  · rw [if_pos ht, if_pos ht]
  · rw [if_neg ht]
    by_cases ho2 : (bareSubGo t.length false t).isEmpty = true
    · rw [if_pos ho2]
    · rw [if_neg ho2]
      exact bareSubGo_idem t.length false t (Nat.le_refl _)

/-- C7 (amended): URL rewriting is idempotent on every URL whose stripped
form contains no embedded whitespace or control characters, and text
rewriting is idempotent on every text; the unconditional URL-level claim
fails on inputs with embedded whitespace. -/
theorem C7_rewrite_idempotent :
    (∀ u : Str, noWsCtl (pyStrip u) = true →
      rewrite_localhost_url (rewrite_localhost_url u) = rewrite_localhost_url u) ∧
    (∀ t : Str, rewrite_localhost_in_text (rewrite_localhost_in_text t)
      = rewrite_localhost_in_text t) :=
  ⟨fun _ hw => rewrite_localhost_url_idem hw, rewrite_localhost_in_text_idem⟩

/-- C7 counterexample: rewriting `http://localhost/a #` once yields
`http://frontend:5173/a ` (the empty fragment marker is dropped, exposing
a trailing space), and rewriting a second time strips that space, so the
second application differs from the first. -/
theorem C7_counterexample :
    rewrite_localhost_url (rewrite_localhost_url (str "http://localhost/a #"))
      ≠ rewrite_localhost_url (str "http://localhost/a #") := by decide

/-- C7 witness: idempotence at a concrete whitespace-free loopback URL. -/
theorem C7_rewrite_idempotent_witness :
    rewrite_localhost_url (rewrite_localhost_url (str "http://localhost:3000/x?a=1"))
      = rewrite_localhost_url (str "http://localhost:3000/x?a=1") :=
  C7_rewrite_idempotent.1 (str "http://localhost:3000/x?a=1") (by decide)

/-- C10 (amended): on a parse whose hostname is loopback, the rewrite
replaces exactly the scheme and netloc with the internal base URL's,
keeping path, params, query and fragment; every other input with a clean
stripped form — non-loopback host, empty, or unparsable — is returned
stripped of surrounding whitespace (not unchanged). -/
theorem C10_rewrite_components :
    (∀ (u : Str) (p : UrlParseRec),
      urlparseE (prependIfBare (pyStrip u)) = some p →
      ¬p.scheme.isEmpty → ¬p.netloc.isEmpty →
      hostnameOf p.netloc ∈ loopbackHosts →
      rewrite_localhost_url u = urlunparseR ⟨str "http", str "frontend:5173",
        p.path, p.params, p.query, p.fragment⟩) ∧
    (∀ u : Str, noWsCtl (pyStrip u) = true →
      (match urlparseE (prependIfBare (pyStrip u)) with
       | none => True
       | some p => p.scheme.isEmpty = true ∨ p.netloc.isEmpty = true ∨
           hostnameOf p.netloc ∉ loopbackHosts) →
      rewrite_localhost_url u = pyStrip u) := by
  constructor
  · intro u p hp h1 h2 h3
    have hne : (pyStrip u).isEmpty = false := by
      cases hEmpty : (pyStrip u).isEmpty
      · rfl
      · exfalso
        have hnil : pyStrip u = [] := List.isEmpty_iff.mp hEmpty
        rw [hnil] at hp
        rw [show prependIfBare ([] : Str) = [] from by decide] at hp
        rw [show urlparseE ([] : Str) = some ⟨[], [], [], [], [], []⟩
          from by decide] at hp
        injection hp with hp
        subst hp
        exact h1 rfl
    rw [rewrite_localhost_url_eq hne, hp]
    dsimp only
    rw [if_pos ⟨h1, h2, h3⟩]
  · intro u hw hcond
    by_cases hr0 : (pyStrip u).isEmpty = true
    · have hnil : pyStrip u = [] := List.isEmpty_iff.mp hr0
      unfold rewrite_localhost_url
      rw [hnil]
      rfl
    · have hne : (pyStrip u).isEmpty = false := by
        cases hEmpty : (pyStrip u).isEmpty
        · rfl
        · exact absurd hEmpty hr0
      have hnoprep : prependIfBare (pyStrip u) = pyStrip u := by
        unfold prependIfBare
        split
        · rename_i hcp
          exfalso
          have hb : bareLoopbackPre (pyStrip u) = true := by
            simp only [Bool.and_eq_true] at hcp
            exact hcp.2
          obtain ⟨p2, hp2, hs2, hn2, hh2⟩ := prepend_parses_loopback hw hb
          have hpb : prependIfBare (pyStrip u) = str "http://" ++ pyStrip u := by
            unfold prependIfBare
            rw [if_pos hcp]
          rw [hpb, hp2] at hcond
          rcases hcond with hcon | hcon | hcon
          · rw [hs2] at hcon
            exact absurd hcon (by decide)
          · exact hn2 (List.isEmpty_iff.mp hcon)
          · exact hcon hh2
        · rfl
      rw [rewrite_localhost_url_eq hne, hnoprep]
      rw [hnoprep] at hcond
      cases hp : urlparseE (pyStrip u) with
      | none => rfl
      | some p =>
        rw [hp] at hcond
        dsimp only at hcond ⊢
        rw [if_neg (by
          rintro ⟨hc1, hc2, hc3⟩
          rcases hcond with hcon | hcon | hcon
          · exact hc1 hcon
          · exact hc2 hcon
          · exact hcon hc3)]

/-- C10 counterexample: a non-loopback input with surrounding whitespace is
returned stripped, not unchanged. -/
theorem C10_counterexample :
    rewrite_localhost_url (str " example.com ") = str "example.com" ∧
    str "example.com" ≠ str " example.com " :=
  ⟨by decide, by decide⟩

/-- C10 witness: the loopback branch carries path, query and fragment over
to the internal netloc at a concrete URL, and a non-loopback input comes
back stripped. -/
theorem C10_rewrite_components_witness :
    rewrite_localhost_url (str "http://127.0.0.1:8000/p?q=1#f")
      = urlunparseR ⟨str "http", str "frontend:5173", str "/p", [],
          str "q=1", str "f"⟩ ∧
    rewrite_localhost_url (str " a.example.org/x ")
      = pyStrip (str " a.example.org/x ") :=
  ⟨C10_rewrite_components.1 (str "http://127.0.0.1:8000/p?q=1#f")
    ⟨str "http", str "127.0.0.1:8000", str "/p", [], str "q=1", str "f"⟩
    (by decide) (by decide) (by decide) (by decide),
   C10_rewrite_components.2 (str " a.example.org/x ") (by decide) (by
     rw [show urlparseE (prependIfBare (pyStrip (str " a.example.org/x ")))
       = some ⟨[], [], str "a.example.org/x", [], [], []⟩ from by decide]
     exact Or.inl rfl)⟩
